import Mathlib

/-!
Shallow embedding of the RoadYAML pipeline (`src/roadyaml/yaml.py`):
an indentation-sensitive line scanner with scalar coercion, a
recursive-descent parser driven by indentation comparison, and a
structure-aware dumper, together with correctness theorems about them.

Modelling conventions:
* Python strings are Lean `String`s; the scanner and coercion work on
  `List Char` (`String.data`) so that every step is a plain structural
  recursion.  Only ASCII text is modelled (the source never treats
  non-ASCII characters specially, and CPython's acceptance of non-ASCII
  digits in `int`/`float` is outside the model).
* Python `float` values are modelled by the stripped source text that
  produced them (constructor `Value.float`).  The pipeline never does
  float arithmetic: it only checks that `float(text)` succeeds and later
  prints the value back, so the text itself is a faithful carrier.  The
  IEEE-754 rounding and shortest-repr normalisation that `str(float(t))`
  performs are not modelled; no claim below depends on them.
* Python `dict` is modelled as an insertion-ordered association list;
  `result[key] = value` is `insertAssoc`, which overwrites in place and
  otherwise appends.
* The `Token.line` field of the source is carried nowhere: the parser
  never reads it (the spec itself calls it "diagnostic only"), so tokens
  here carry only their kind, payload and indentation column.
* The source raises no exception on any path of scan/parse/dump, so the
  embedded functions are plain total functions (no `Except`).
-/

namespace RoadYaml

/-- whitespace characters removed by Python's `str.strip` on ASCII text. -/
def isPyWs (c : Char) : Bool :=
  c = ' ' || c = '\t' || c = '\n' || c = '\r' || c = '\x0b' || c = '\x0c'

/-- drop the longest suffix of whitespace, mirroring the right half of `str.strip`. -/
def dropRightWhileWs (l : List Char) : List Char :=
  (l.reverse.dropWhile isPyWs).reverse

/-- Python `str.strip()` on a list of characters. -/
def pyStripL (l : List Char) : List Char :=
  dropRightWhileWs (l.dropWhile isPyWs)

/-- Python `str.lower()` on ASCII text. -/
def lowerL (l : List Char) : List Char :=
  l.map Char.toLower

/-- numeric value of a decimal digit character. -/
def digitVal (c : Char) : Nat := c.toNat - 48

/-- tail of Python's integer digit grammar `digit (["_"] digit)*`, folding the
digits into an accumulator; underscores must be followed by a digit. -/
def digitsCore (acc : Nat) : List Char → Option Nat
  | [] => some acc
  | c :: r =>
    if c.isDigit then digitsCore (10 * acc + digitVal c) r
    else if c = '_' then
      match r with
      | c2 :: r2 => if c2.isDigit then digitsCore (10 * acc + digitVal c2) r2 else none
      | [] => none
    else none

/-- Python digit-part grammar: at least one digit, single underscores allowed
between digits, nothing else; returns the denoted natural number. -/
def digitStart : List Char → Option Nat
  | [] => none
  | c :: r => if c.isDigit then digitsCore (digitVal c) r else none

/-- Python `int(text)` on already-stripped ASCII text: optional sign, then
the digit-part grammar. -/
def pyInt? (l : List Char) : Option Int :=
  match l with
  | [] => none
  | c :: r =>
    if c = '+' then (digitStart r).map Int.ofNat
    else if c = '-' then (digitStart r).map (fun n => -(n : Int))
    else (digitStart (c :: r)).map Int.ofNat

/-- greedy continuation of a digit-part: consumes `(["_"] digit | digit)*` and
returns the unconsumed remainder. -/
def digitTail : List Char → List Char
  | [] => []
  | c :: r =>
    if c.isDigit then digitTail r
    else if c = '_' then
      match r with
      | c2 :: r2 => if c2.isDigit then digitTail r2 else c :: r
      | [] => c :: r
    else c :: r

/-- consume one digit-part (at least one digit) and return the remainder. -/
def digitChunk? : List Char → Option (List Char)
  | [] => none
  | c :: r => if c.isDigit then some (digitTail r) else none

/-- exponent suffix of Python's float grammar: empty, or `[eE][+-]?digitpart`
consuming the whole remainder. -/
def expOk (l : List Char) : Bool :=
  match l with
  | [] => true
  | c :: r =>
    if c = 'e' ∨ c = 'E' then
      let r2 := match r with
        | c2 :: r3 => if c2 = '+' ∨ c2 = '-' then r3 else c2 :: r3
        | [] => r
      match digitChunk? r2 with
      | some [] => true
      | _ => false
    else false

/-- unsigned numeric part of Python's float grammar:
`digitpart ["." [digitpart]] [exp]` or `"." digitpart [exp]`. -/
def mantExp (l : List Char) : Bool :=
  match digitChunk? l with
  | some rest =>
    match rest with
    | '.' :: r2 =>
      (match digitChunk? r2 with
       | some r3 => expOk r3
       | none => expOk r2)
    | _ => expOk rest
  | none =>
    match l with
    | '.' :: r2 =>
      (match digitChunk? r2 with
       | some r3 => expOk r3
       | none => false)
    | _ => false

/-- Python `float(text)` acceptance on already-stripped ASCII text: optional
sign, then `inf`/`infinity`/`nan` (case-insensitive) or the numeric grammar. -/
def pyFloatOk (l : List Char) : Bool :=
  let l2 := match l with
    | c :: r => if c = '+' ∨ c = '-' then r else c :: r
    | [] => l
  let low := lowerL l2
  if low = "inf".data ∨ low = "infinity".data ∨ low = "nan".data then true
  else mantExp l2

/-- Value: the universal tree type of the pipeline (Python's untyped results).
`float` carries the source text of the float, see the module comment. -/
inductive Value where
  | null
  | bool (b : Bool)
  | int (n : Int)
  | float (text : String)
  | str (s : String)
  | seq (items : List Value)
  | map (entries : List (String × Value))
deriving Repr

/-- Scanner._parse_value from the source: scalar coercion of a raw fragment.
Rules in source order: strip; empty ⇒ None; true/yes/on ⇒ True;
false/no/off ⇒ False; null/~ ⇒ None; double-quote wrapped ⇒ quotes stripped;
single-quote wrapped ⇒ quotes stripped; `int(...)`; `float(...)`;
otherwise the stripped string itself. -/
def Scanner.parseValueL (l : List Char) : Value :=
  let v := pyStripL l
  if v = [] then .null
  else if lowerL v = "true".data ∨ lowerL v = "yes".data ∨ lowerL v = "on".data then
    .bool true
  else if lowerL v = "false".data ∨ lowerL v = "no".data ∨ lowerL v = "off".data then
    .bool false
  else if lowerL v = "null".data ∨ lowerL v = "~".data then .null
  else if v.head? = some '"' ∧ v.getLast? = some '"' then
    .str ⟨(v.drop 1).dropLast⟩
  else if v.head? = some '\'' ∧ v.getLast? = some '\'' then
    .str ⟨(v.drop 1).dropLast⟩
  else
    match pyInt? v with
    | some n => .int n
    | none => if pyFloatOk v then .float ⟨v⟩ else .str ⟨v⟩

/-- Scanner._parse_value on a Lean `String`. -/
def Scanner.parseValue (s : String) : Value :=
  Scanner.parseValueL s.data

/-- Token record of the source, without the diagnostic-only line number:
kind tag, payload, and indentation column of the originating line. -/
inductive Tok where
  | listItem (raw : String) (indent : Nat)
  | key (k : String) (indent : Nat)
  | keyValue (k : String) (v : Value) (indent : Nat)
  | value (v : Value) (indent : Nat)
deriving Repr

/-- indentation column carried by a token. -/
def Tok.indent : Tok → Nat
  | .listItem _ i => i
  | .key _ i => i
  | .keyValue _ _ i => i
  | .value _ i => i

/-- split on the first occurrence of `": "`, Python's
`content.split(": ", 1)` when the separator occurs. -/
def splitColonSpace : List Char → Option (List Char × List Char)
  | [] => none
  | c :: r =>
    if c = ':' ∧ r.head? = some ' ' then some ([], r.tail)
    else (splitColonSpace r).map (fun p => (c :: p.1, p.2))

/-- Python `text.split("\n")`: split a character list on every newline. -/
def splitNl : List Char → List (List Char)
  | [] => [[]]
  | c :: r =>
    if c = '\n' then [] :: splitNl r
    else
      match splitNl r with
      | [] => [[c]]
      | h :: t => (c :: h) :: t

/-- classification of one source line by `Scanner.scan`: skip blank and
comment lines; otherwise measure the indent, strip the content and emit a
LIST_ITEM, KEY, KEY_VALUE or VALUE token exactly as the source does. -/
def lineTok (l : List Char) : Option Tok :=
  let c := pyStripL l
  if c = [] then none
  else if c.head? = some '#' then none
  else
    let indent := l.length - (l.dropWhile isPyWs).length
    if c.take 2 = ['-', ' '] then some (.listItem ⟨c.drop 2⟩ indent)
    else if (splitColonSpace c).isSome ∨ c.getLast? = some ':' then
      if c.getLast? = some ':' then some (.key ⟨c.dropLast⟩ indent)
      else
        match splitColonSpace c with
        | some (k, r) => some (.keyValue ⟨k⟩ (Scanner.parseValueL r) indent)
        | none => none
    else some (.value (Scanner.parseValueL c) indent)

/-- token sequence of a character text: split on newlines, classify each line. -/
def scanL (cs : List Char) : List Tok :=
  (splitNl cs).filterMap lineTok

/-- Scanner.scan from the source: split the document on newlines and classify
each surviving line into a token. -/
def Scanner.scan (text : String) : List Tok :=
  scanL text.data

/-- insertion into an ordered association list, modelling Python's
`result[key] = value` on a dict: an existing key keeps its position and gets
the new value, a new key is appended at the end. -/
def insertAssoc (es : List (String × Value)) (k : String) (v : Value) :
    List (String × Value) :=
  match es with
  | [] => [(k, v)]
  | (k', v') :: rest =>
    if k' = k then (k', v) :: rest else (k', v') :: insertAssoc rest k v

mutual

/-- Parser._parse_value from the source: dispatch on the next token's kind.
The returned list is the unconsumed suffix of the input (the cursor), packaged
with the bound that makes the mutual recursion terminate. -/
def Parser.parseValue (base : Nat) (ts : List Tok) :
    Value × { r : List Tok // r.length ≤ ts.length } :=
  match ts with
  | [] => (.null, ⟨[], Nat.le_refl _⟩)
  | .value v i :: rest => (v, ⟨rest, by simp⟩)
  | .listItem raw i :: rest =>
    let p := Parser.parseList base (.listItem raw i :: rest) []
    (.seq p.1, p.2)
  | .key k i :: rest =>
    let p := Parser.parseMapping base (.key k i :: rest) []
    (.map p.1, p.2)
  | .keyValue k v i :: rest =>
    let p := Parser.parseMapping base (.keyValue k v i :: rest) []
    (.map p.1, p.2)
termination_by (ts.length, 1)
decreasing_by
  all_goals simp_wf
  all_goals (apply Prod.Lex.right; omega)

/-- Parser._parse_mapping from the source: consume KEY_VALUE and KEY tokens
while the indent stays at or above `base`; a KEY token followed by a
deeper-indented token triggers a recursive child parse rooted at that deeper
indent, otherwise the key gets `null`; any other token kind ends the mapping. -/
def Parser.parseMapping (base : Nat) (ts : List Tok)
    (acc : List (String × Value)) :
    List (String × Value) × { r : List Tok // r.length ≤ ts.length } :=
  match ts with
  | [] => (acc, ⟨[], Nat.le_refl _⟩)
  | t :: rest =>
    if t.indent < base then (acc, ⟨t :: rest, Nat.le_refl _⟩)
    else
      match t with
      | .keyValue k v _ =>
        let p := Parser.parseMapping base rest (insertAssoc acc k v)
        (p.1, ⟨p.2.1, Nat.le_succ_of_le p.2.2⟩)
      | .key k ki =>
        match rest with
        | [] => (insertAssoc acc k .null, ⟨[], by simp⟩)
        | t2 :: rest2 =>
          if ki < t2.indent then
            match Parser.parseValue t2.indent (t2 :: rest2) with
            | (v1, ⟨r1, hr1⟩) =>
              let p := Parser.parseMapping base r1 (insertAssoc acc k v1)
              (p.1, ⟨p.2.1, by
                have h1 := p.2.2
                simp only [List.length_cons] at *
                omega⟩)
          else
            let p := Parser.parseMapping base (t2 :: rest2) (insertAssoc acc k .null)
            (p.1, ⟨p.2.1, Nat.le_succ_of_le p.2.2⟩)
      | _ => (acc, ⟨t :: rest, Nat.le_refl _⟩)
termination_by (ts.length, 0)
decreasing_by
  all_goals simp_wf
  all_goals first
    | (apply Prod.Lex.left; omega)
    | (apply Prod.Lex.left
       simp only [List.length_cons] at hr1 ⊢
       omega)

/-- Parser._parse_list from the source: consume LIST_ITEM tokens while the
indent stays at or above `base`, scalar-coercing each item's raw payload;
any other token kind or a shallower indent ends the sequence. -/
def Parser.parseList (base : Nat) (ts : List Tok) (acc : List Value) :
    List Value × { r : List Tok // r.length ≤ ts.length } :=
  match ts with
  | [] => (acc, ⟨[], Nat.le_refl _⟩)
  | t :: rest =>
    if t.indent < base then (acc, ⟨t :: rest, Nat.le_refl _⟩)
    else
      match t with
      | .listItem raw _ =>
        let p := Parser.parseList base rest (acc ++ [Scanner.parseValueL raw.data])
        (p.1, ⟨p.2.1, Nat.le_succ_of_le p.2.2⟩)
      | _ => (acc, ⟨t :: rest, Nat.le_refl _⟩)
termination_by (ts.length, 0)
decreasing_by
  all_goals simp_wf
  all_goals (apply Prod.Lex.left; omega)

end

/-- Parser.parse from the source: `null` on an empty token sequence, otherwise
a root parse at base indent 0. -/
def Parser.parse (ts : List Tok) : Value :=
  match ts with
  | [] => .null
  | _ :: _ => (Parser.parseValue 0 ts).1

/-- load from the source: scan, then parse. -/
def load (text : String) : Value :=
  Parser.parse (Scanner.scan text)

/-- character of a decimal digit. -/
def digitChar (d : Nat) : Char :=
  if d = 0 then '0' else if d = 1 then '1' else if d = 2 then '2'
  else if d = 3 then '3' else if d = 4 then '4' else if d = 5 then '5'
  else if d = 6 then '6' else if d = 7 then '7' else if d = 8 then '8' else '9'

/-- decimal digits of a natural number, most significant first; the first
argument is recursion fuel, always called with `fuel = n` (ample since `n / 10`
at least halves once `n ≥ 10`). -/
def natDigits : Nat → Nat → List Char
  | 0, n => [digitChar (n % 10)]
  | fuel + 1, n =>
    if n < 10 then [digitChar n]
    else natDigits fuel (n / 10) ++ [digitChar (n % 10)]

/-- Python `str` on a natural number. -/
def natToString (n : Nat) : String := ⟨natDigits n n⟩

/-- Python `str` on an integer: decimal digits with a `-` sign when negative. -/
def intToString : Int → String
  | .ofNat n => natToString n
  | .negSucc m => "-" ++ natToString (m + 1)

/-- characters that force the dumper to double-quote a string, in source
order `:#{}[]&*!|>'"%@` plus the backtick. -/
def mustQuoteChars : List Char :=
  [':', '#', Char.ofNat 123, Char.ofNat 125, '[', ']', '&', '*', '!', '|',
   '>', '\'', '"', '%', '@', Char.ofNat 96]

/-- quoting test of the dumper: `any(c in data for c in ":#{}[]&*!|>'\"%@`")`. -/
def mustQuote (s : String) : Bool :=
  mustQuoteChars.any (fun c => s.data.contains c)

/-- newline-join of a list of rendered lines, Python's `"\n".join(lines)`. -/
def joinNl : List String → String
  | [] => ""
  | [l] => l
  | l :: r => l ++ "\n" ++ joinNl r

/-- spaces prefixed to a line at nesting depth `level` with indent width `w`. -/
def indentSpaces (w level : Nat) : String :=
  ⟨List.replicate (level * w) ' '⟩

mutual

/-- Dumper.dump from the source: scalars render inline (strings get quoted
when they contain a must-quote character); sequences and mappings delegate. -/
def Dumper.dump (w : Nat) (data : Value) (level : Nat) : String :=
  match data with
  | .null => "null"
  | .bool b => if b then "true" else "false"
  | .int n => intToString n
  | .float t => t
  | .str s => if mustQuote s then "\"" ++ s ++ "\"" else s
  | .seq xs => Dumper.dumpList w xs level
  | .map es => Dumper.dumpMapping w es level
termination_by (sizeOf data, 1)
decreasing_by
  all_goals simp_wf
  all_goals (apply Prod.Lex.left; omega)

/-- one rendered line of Dumper._dump_list's loop: nested collections are
rendered one level deeper with the leading whitespace of their first line
collapsed onto the dash (Python's `lstrip`), scalars render inline. -/
def Dumper.itemLine (w : Nat) (item : Value) (level : Nat) : String :=
  match item with
  | .seq ys =>
    indentSpaces w level ++ "- " ++
      ⟨(Dumper.dump w (.seq ys) (level + 1)).data.dropWhile isPyWs⟩
  | .map es =>
    indentSpaces w level ++ "- " ++
      ⟨(Dumper.dump w (.map es) (level + 1)).data.dropWhile isPyWs⟩
  | v => indentSpaces w level ++ "- " ++ Dumper.dump w v 0
termination_by (sizeOf item, 2)
decreasing_by
  all_goals simp_wf
  all_goals (apply Prod.Lex.right; omega)

/-- rendered lines of Dumper._dump_list's loop, one per item. -/
def Dumper.itemLines (w : Nat) (xs : List Value) (level : Nat) : List String :=
  match xs with
  | [] => []
  | x :: xr => Dumper.itemLine w x level :: Dumper.itemLines w xr level
termination_by (sizeOf xs, 0)
decreasing_by
  all_goals simp_wf
  all_goals first
    | (apply Prod.Lex.left; simp; omega)
    | (apply Prod.Lex.left; omega)
    | (apply Prod.Lex.right; omega)

/-- Dumper._dump_list from the source: `[]` when empty, otherwise the
newline-join of one `- ` line per item. -/
def Dumper.dumpList (w : Nat) (xs : List Value) (level : Nat) : String :=
  match xs with
  | [] => "[]"
  | x :: xr => joinNl (Dumper.itemLines w (x :: xr) level)
termination_by (sizeOf xs, 1)
decreasing_by
  all_goals simp_wf
  all_goals (apply Prod.Lex.right; omega)

/-- one rendered piece of Dumper._dump_mapping's loop: a non-empty collection
value becomes `key:` followed on the next line by its deeper rendering, any
other value renders inline as `key: value`. -/
def Dumper.entryLine (w : Nat) (k1 : String) (v : Value) (level : Nat) : String :=
  match v with
  | .seq (y :: ys) =>
    indentSpaces w level ++ k1 ++ ":\n" ++ Dumper.dump w (.seq (y :: ys)) (level + 1)
  | .map (f :: fs) =>
    indentSpaces w level ++ k1 ++ ":\n" ++ Dumper.dump w (.map (f :: fs)) (level + 1)
  | v => indentSpaces w level ++ k1 ++ ": " ++ Dumper.dump w v 0
termination_by (sizeOf v, 2)
decreasing_by
  all_goals simp_wf
  all_goals (apply Prod.Lex.right; omega)

/-- rendered pieces of Dumper._dump_mapping's loop, one per entry. -/
def Dumper.entryLines (w : Nat) (es : List (String × Value)) (level : Nat) :
    List String :=
  match es with
  | [] => []
  | (k1, v) :: er => Dumper.entryLine w k1 v level :: Dumper.entryLines w er level
termination_by (sizeOf es, 0)
decreasing_by
  all_goals simp_wf
  all_goals first
    | (apply Prod.Lex.left; simp; omega)
    | (apply Prod.Lex.left; omega)
    | (apply Prod.Lex.right; omega)

/-- Dumper._dump_mapping from the source: `{}` when empty, otherwise the
newline-join of one rendered piece per entry. -/
def Dumper.dumpMapping (w : Nat) (es : List (String × Value)) (level : Nat) :
    String :=
  match es with
  | [] => "\x7b\x7d"
  | e :: er => joinNl (Dumper.entryLines w (e :: er) level)
termination_by (sizeOf es, 1)
decreasing_by
  all_goals simp_wf
  all_goals (apply Prod.Lex.right; omega)

end

/-- dump from the source: serialize a Value with the given indent width
(default 2), starting at level 0. -/
def dump (data : Value) (indent : Nat := 2) : String :=
  Dumper.dump indent data 0

/-! Predicates used by the round-trip theorems.  `Good` carves out the class
of Values whose dumped text re-scans and re-parses to the same tree: shapes
the parser can actually produce (non-empty collections, sequences of scalars
only, keys unique) whose strings and keys survive one scan/coerce cycle. -/

/-- lowercase spellings that scalar coercion turns into booleans or nulls. -/
def boolNullWords : List (List Char) :=
  ["true".data, "yes".data, "on".data, "false".data, "no".data, "off".data,
   "null".data, "~".data]

/-- a text fragment that the scanner and coercion hand back unchanged: it is
non-empty, already stripped, contains no newline and none of the dumper's
must-quote characters (hence no colon, hash or quote), does not begin with a
dash-space, does not spell a boolean/null word, and is not numeric unless it
is classified so. -/
def plainFrag (s : String) : Prop :=
  s.data ≠ [] ∧ pyStripL s.data = s.data ∧
  (∀ c ∈ s.data, c ∉ mustQuoteChars ∧ c ≠ '\n') ∧
  s.data.take 2 ≠ ['-', ' '] ∧
  lowerL s.data ∉ boolNullWords

/-- a mapping key that survives being embedded in `key: value` / `key:` lines:
non-empty, stripped, no newline, no leading dash-space or hash, no `": "`
substring and no trailing colon. -/
def plainKey (k : String) : Prop :=
  k.data ≠ [] ∧ pyStripL k.data = k.data ∧
  (∀ c ∈ k.data, c ≠ '\n') ∧
  k.data.take 2 ≠ ['-', ' '] ∧
  k.data.head? ≠ some '#' ∧
  splitColonSpace k.data = none ∧
  k.data.getLast? ≠ some ':'

/-- scalar (leaf) Values: everything except sequences and mappings. -/
def Value.isScalar : Value → Prop
  | .seq _ => False
  | .map _ => False
  | _ => True

/-- Values whose dump re-loads to the same tree: scalars with well-behaved
text, non-empty sequences of such scalars, and non-empty mappings with plain,
distinct keys and Good values. -/
inductive Good : Value → Prop where
  | null : Good .null
  | bool (b : Bool) : Good (.bool b)
  | int (n : Int) : Good (.int n)
  | float (t : String) : plainFrag t → pyInt? t.data = none →
      pyFloatOk t.data = true → Good (.float t)
  | str (s : String) : plainFrag s → pyInt? s.data = none →
      pyFloatOk s.data = false → Good (.str s)
  | seq (xs : List Value) : xs ≠ [] → (∀ x ∈ xs, x.isScalar) →
      (∀ x ∈ xs, Good x) → Good (.seq xs)
  | map (es : List (String × Value)) : es ≠ [] → (es.map Prod.fst).Nodup →
      (∀ e ∈ es, plainKey e.1) → (∀ e ∈ es, Good e.2) → Good (.map es)

/-- head-of-remainder condition threaded through the round-trip induction:
the first unconsumed token, if any, sits at an indent below `b`. -/
def stopsBelow (b : Nat) (rest : List Tok) : Prop :=
  ∀ t, rest.head? = some t → t.indent < b

/-- tokens the scanner will produce from the dumper's rendering of one
sequence of scalar items at nesting level `L`. -/
def itemToks (L : Nat) : List Value → List Tok
  | [] => []
  | x :: xr => .listItem ⟨(Dumper.dump 2 x 0).data⟩ (L * 2) :: itemToks L xr

/-- tokens contributed by one mapping entry at nesting level `L`: a scalar
entry gives one KEY_VALUE token, a nested non-empty collection gives a KEY
token followed by the child block's tokens. -/
def entryHeadToks (L : Nat) (k : String) (v : Value) : List Tok :=
  match v with
  | .seq (y :: ys) =>
    .key k (L * 2) :: scanL (Dumper.dump 2 (.seq (y :: ys)) (L + 1)).data
  | .map (f :: fs) =>
    .key k (L * 2) :: scanL (Dumper.dump 2 (.map (f :: fs)) (L + 1)).data
  | v => [.keyValue k v (L * 2)]

/-- tokens the scanner will produce from the dumper's rendering of mapping
entries at nesting level `L`. -/
def entryToks (L : Nat) : List (String × Value) → List Tok
  | [] => []
  | (k, v) :: er => entryHeadToks L k v ++ entryToks L er

/-- the spec's reading of coercion rule 7, literally: an optional leading
sign followed by decimal digits only, nothing else. -/
def signDigitsOnly (l : List Char) : Bool :=
  match l with
  | [] => false
  | c :: r =>
    if c = '+' ∨ c = '-' then !r.isEmpty && r.all Char.isDigit
    else (c :: r).all Char.isDigit

/-- continuation shape of an underscore-grouped digit run after its first
digit: only digits and underscores, ending in a digit, never two underscores
in a row. -/
def restDigits (l : List Char) : Prop :=
  (∀ c ∈ l, c.isDigit ∨ c = '_') ∧
  (∀ c, l.getLast? = some c → c.isDigit) ∧
  List.Chain' (fun a b => ¬(a = '_' ∧ b = '_')) l

/-- what Python's `int` actually accepts after an optional sign: a non-empty
run of digits that may contain single underscores strictly between digits. -/
def groupedDigits (digits : List Char) : Prop :=
  digits ≠ [] ∧ (∀ c ∈ digits, c.isDigit ∨ c = '_') ∧
  (∀ c, digits.head? = some c → c.isDigit) ∧
  (∀ c, digits.getLast? = some c → c.isDigit) ∧
  List.Chain' (fun a b => ¬(a = '_' ∧ b = '_')) digits

/-- base-10 integer-literal shape accepted by Python's `int`: optional sign,
then an underscore-grouped digit run. -/
def pyIntShape (l : List Char) : Prop :=
  match l with
  | [] => False
  | c :: r =>
    if c = '+' ∨ c = '-' then groupedDigits r
    else groupedDigits (c :: r)

/-! Step lemmas: one rewrite per case of the parser's well-founded
definitions, stated on the value component and the unconsumed-suffix
component separately so that later proofs never touch the termination
packaging. -/

/-- value component of `Parser.parseValue`. -/
def parseValueF (base : Nat) (ts : List Tok) : Value :=
  (Parser.parseValue base ts).1

/-- unconsumed suffix of `Parser.parseValue`. -/
def parseValueR (base : Nat) (ts : List Tok) : List Tok :=
  (Parser.parseValue base ts).2.1

/-- accumulated mapping of `Parser.parseMapping`. -/
def parseMappingF (base : Nat) (ts : List Tok) (acc : List (String × Value)) :
    List (String × Value) :=
  (Parser.parseMapping base ts acc).1

/-- unconsumed suffix of `Parser.parseMapping`. -/
def parseMappingR (base : Nat) (ts : List Tok) (acc : List (String × Value)) :
    List Tok :=
  (Parser.parseMapping base ts acc).2.1

/-- accumulated sequence of `Parser.parseList`. -/
def parseListF (base : Nat) (ts : List Tok) (acc : List Value) : List Value :=
  (Parser.parseList base ts acc).1

/-- unconsumed suffix of `Parser.parseList`. -/
def parseListR (base : Nat) (ts : List Tok) (acc : List Value) : List Tok :=
  (Parser.parseList base ts acc).2.1

theorem parseValueF_nil (b : Nat) : parseValueF b [] = .null := by
  simp [parseValueF, Parser.parseValue.eq_def]

theorem parseValueR_nil (b : Nat) : parseValueR b [] = [] := by
  simp [parseValueR, Parser.parseValue.eq_def]

theorem parseValueF_value (b : Nat) (v : Value) (i : Nat) (rest : List Tok) :
    parseValueF b (.value v i :: rest) = v := by
  simp [parseValueF, Parser.parseValue.eq_def]

theorem parseValueR_value (b : Nat) (v : Value) (i : Nat) (rest : List Tok) :
    parseValueR b (.value v i :: rest) = rest := by
  simp [parseValueR, Parser.parseValue.eq_def]

theorem parseValueF_listItem (b : Nat) (raw : String) (i : Nat) (rest : List Tok) :
    parseValueF b (.listItem raw i :: rest) =
      .seq (parseListF b (.listItem raw i :: rest) []) := by
  simp [parseValueF, parseListF, Parser.parseValue.eq_def]

theorem parseValueR_listItem (b : Nat) (raw : String) (i : Nat) (rest : List Tok) :
    parseValueR b (.listItem raw i :: rest) =
      parseListR b (.listItem raw i :: rest) [] := by
  simp [parseValueR, parseListR, Parser.parseValue.eq_def]

theorem parseValueF_key (b : Nat) (k : String) (i : Nat) (rest : List Tok) :
    parseValueF b (.key k i :: rest) =
      .map (parseMappingF b (.key k i :: rest) []) := by
  simp [parseValueF, parseMappingF, Parser.parseValue.eq_def]

theorem parseValueR_key (b : Nat) (k : String) (i : Nat) (rest : List Tok) :
    parseValueR b (.key k i :: rest) =
      parseMappingR b (.key k i :: rest) [] := by
  simp [parseValueR, parseMappingR, Parser.parseValue.eq_def]

theorem parseValueF_keyValue (b : Nat) (k : String) (v : Value) (i : Nat)
    (rest : List Tok) :
    parseValueF b (.keyValue k v i :: rest) =
      .map (parseMappingF b (.keyValue k v i :: rest) []) := by
  simp [parseValueF, parseMappingF, Parser.parseValue.eq_def]

theorem parseValueR_keyValue (b : Nat) (k : String) (v : Value) (i : Nat)
    (rest : List Tok) :
    parseValueR b (.keyValue k v i :: rest) =
      parseMappingR b (.keyValue k v i :: rest) [] := by
  simp [parseValueR, parseMappingR, Parser.parseValue.eq_def]

theorem parseMappingF_nil (b : Nat) (acc : List (String × Value)) :
    parseMappingF b [] acc = acc := by
  simp [parseMappingF, Parser.parseMapping.eq_def]

theorem parseMappingR_nil (b : Nat) (acc : List (String × Value)) :
    parseMappingR b [] acc = [] := by
  simp [parseMappingR, Parser.parseMapping.eq_def]

theorem parseMappingF_break (b : Nat) (t : Tok) (rest : List Tok)
    (acc : List (String × Value)) (h : t.indent < b) :
    parseMappingF b (t :: rest) acc = acc := by
  simp [parseMappingF, Parser.parseMapping.eq_def, h]

theorem parseMappingR_break (b : Nat) (t : Tok) (rest : List Tok)
    (acc : List (String × Value)) (h : t.indent < b) :
    parseMappingR b (t :: rest) acc = t :: rest := by
  simp [parseMappingR, Parser.parseMapping.eq_def, h]

theorem parseMappingF_keyValue (b : Nat) (k : String) (v : Value) (i : Nat)
    (rest : List Tok) (acc : List (String × Value)) (h : ¬ i < b) :
    parseMappingF b (.keyValue k v i :: rest) acc =
      parseMappingF b rest (insertAssoc acc k v) := by
  simp only [parseMappingF]
  conv_lhs => rw [Parser.parseMapping.eq_def]
  simp [Tok.indent, h]

theorem parseMappingR_keyValue (b : Nat) (k : String) (v : Value) (i : Nat)
    (rest : List Tok) (acc : List (String × Value)) (h : ¬ i < b) :
    parseMappingR b (.keyValue k v i :: rest) acc =
      parseMappingR b rest (insertAssoc acc k v) := by
  simp only [parseMappingR]
  conv_lhs => rw [Parser.parseMapping.eq_def]
  simp [Tok.indent, h]

theorem parseMappingF_key_end (b : Nat) (k : String) (i : Nat)
    (acc : List (String × Value)) (h : ¬ i < b) :
    parseMappingF b [.key k i] acc = insertAssoc acc k .null := by
  simp [parseMappingF, Parser.parseMapping.eq_def, Tok.indent, h]

theorem parseMappingR_key_end (b : Nat) (k : String) (i : Nat)
    (acc : List (String × Value)) (h : ¬ i < b) :
    parseMappingR b [.key k i] acc = [] := by
  simp [parseMappingR, Parser.parseMapping.eq_def, Tok.indent, h]

theorem parseMappingF_key_deep (b : Nat) (k : String) (i : Nat) (t2 : Tok)
    (rest2 : List Tok) (acc : List (String × Value)) (h : ¬ i < b)
    (h2 : i < t2.indent) :
    parseMappingF b (.key k i :: t2 :: rest2) acc =
      parseMappingF b (parseValueR t2.indent (t2 :: rest2))
        (insertAssoc acc k (parseValueF t2.indent (t2 :: rest2))) := by
  simp only [parseMappingF, parseValueF, parseValueR]
  conv_lhs => rw [Parser.parseMapping.eq_def]
  cases t2 <;> simp_all [Tok.indent] <;> rw [if_neg (by omega)]

theorem parseMappingR_key_deep (b : Nat) (k : String) (i : Nat) (t2 : Tok)
    (rest2 : List Tok) (acc : List (String × Value)) (h : ¬ i < b)
    (h2 : i < t2.indent) :
    parseMappingR b (.key k i :: t2 :: rest2) acc =
      parseMappingR b (parseValueR t2.indent (t2 :: rest2))
        (insertAssoc acc k (parseValueF t2.indent (t2 :: rest2))) := by
  simp only [parseMappingR, parseValueF, parseValueR]
  conv_lhs => rw [Parser.parseMapping.eq_def]
  cases t2 <;> simp_all [Tok.indent] <;> rw [if_neg (by omega)]

theorem parseMappingF_key_shallow (b : Nat) (k : String) (i : Nat) (t2 : Tok)
    (rest2 : List Tok) (acc : List (String × Value)) (h : ¬ i < b)
    (h2 : ¬ i < t2.indent) :
    parseMappingF b (.key k i :: t2 :: rest2) acc =
      parseMappingF b (t2 :: rest2) (insertAssoc acc k .null) := by
  simp only [parseMappingF]
  cases t2 <;>
    (conv_lhs => rw [Parser.parseMapping.eq_def]
     simp only [Tok.indent] at h2 ⊢
     rw [if_neg h, if_neg h2])

theorem parseMappingR_key_shallow (b : Nat) (k : String) (i : Nat) (t2 : Tok)
    (rest2 : List Tok) (acc : List (String × Value)) (h : ¬ i < b)
    (h2 : ¬ i < t2.indent) :
    parseMappingR b (.key k i :: t2 :: rest2) acc =
      parseMappingR b (t2 :: rest2) (insertAssoc acc k .null) := by
  simp only [parseMappingR]
  cases t2 <;>
    (conv_lhs => rw [Parser.parseMapping.eq_def]
     simp only [Tok.indent] at h2 ⊢
     rw [if_neg h, if_neg h2])

theorem parseMappingF_stop_listItem (b : Nat) (raw : String) (i : Nat)
    (rest : List Tok) (acc : List (String × Value)) (h : ¬ i < b) :
    parseMappingF b (.listItem raw i :: rest) acc = acc := by
  simp [parseMappingF, Parser.parseMapping.eq_def, Tok.indent, h]

theorem parseMappingR_stop_listItem (b : Nat) (raw : String) (i : Nat)
    (rest : List Tok) (acc : List (String × Value)) (h : ¬ i < b) :
    parseMappingR b (.listItem raw i :: rest) acc = .listItem raw i :: rest := by
  simp [parseMappingR, Parser.parseMapping.eq_def, Tok.indent, h]

theorem parseMappingF_stop_value (b : Nat) (v : Value) (i : Nat)
    (rest : List Tok) (acc : List (String × Value)) (h : ¬ i < b) :
    parseMappingF b (.value v i :: rest) acc = acc := by
  simp [parseMappingF, Parser.parseMapping.eq_def, Tok.indent, h]

theorem parseMappingR_stop_value (b : Nat) (v : Value) (i : Nat)
    (rest : List Tok) (acc : List (String × Value)) (h : ¬ i < b) :
    parseMappingR b (.value v i :: rest) acc = .value v i :: rest := by
  simp [parseMappingR, Parser.parseMapping.eq_def, Tok.indent, h]

theorem parseListF_nil (b : Nat) (acc : List Value) :
    parseListF b [] acc = acc := by
  simp [parseListF, Parser.parseList.eq_def]

theorem parseListR_nil (b : Nat) (acc : List Value) :
    parseListR b [] acc = [] := by
  simp [parseListR, Parser.parseList.eq_def]

theorem parseListF_break (b : Nat) (t : Tok) (rest : List Tok)
    (acc : List Value) (h : t.indent < b) :
    parseListF b (t :: rest) acc = acc := by
  simp [parseListF, Parser.parseList.eq_def, h]

theorem parseListR_break (b : Nat) (t : Tok) (rest : List Tok)
    (acc : List Value) (h : t.indent < b) :
    parseListR b (t :: rest) acc = t :: rest := by
  simp [parseListR, Parser.parseList.eq_def, h]

theorem parseListF_item (b : Nat) (raw : String) (i : Nat) (rest : List Tok)
    (acc : List Value) (h : ¬ i < b) :
    parseListF b (.listItem raw i :: rest) acc =
      parseListF b rest (acc ++ [Scanner.parseValueL raw.data]) := by
  simp only [parseListF]
  conv_lhs => rw [Parser.parseList.eq_def]
  simp [Tok.indent, h]

theorem parseListR_item (b : Nat) (raw : String) (i : Nat) (rest : List Tok)
    (acc : List Value) (h : ¬ i < b) :
    parseListR b (.listItem raw i :: rest) acc =
      parseListR b rest (acc ++ [Scanner.parseValueL raw.data]) := by
  simp only [parseListR]
  conv_lhs => rw [Parser.parseList.eq_def]
  simp [Tok.indent, h]

theorem parseListF_stop_key (b : Nat) (k : String) (i : Nat) (rest : List Tok)
    (acc : List Value) (h : ¬ i < b) :
    parseListF b (.key k i :: rest) acc = acc := by
  simp [parseListF, Parser.parseList.eq_def, Tok.indent, h]

theorem parseListR_stop_key (b : Nat) (k : String) (i : Nat) (rest : List Tok)
    (acc : List Value) (h : ¬ i < b) :
    parseListR b (.key k i :: rest) acc = .key k i :: rest := by
  simp [parseListR, Parser.parseList.eq_def, Tok.indent, h]

theorem parseListF_stop_keyValue (b : Nat) (k : String) (v : Value) (i : Nat)
    (rest : List Tok) (acc : List Value) (h : ¬ i < b) :
    parseListF b (.keyValue k v i :: rest) acc = acc := by
  simp [parseListF, Parser.parseList.eq_def, Tok.indent, h]

theorem parseListR_stop_keyValue (b : Nat) (k : String) (v : Value) (i : Nat)
    (rest : List Tok) (acc : List Value) (h : ¬ i < b) :
    parseListR b (.keyValue k v i :: rest) acc = .keyValue k v i :: rest := by
  simp [parseListR, Parser.parseList.eq_def, Tok.indent, h]

theorem parseListF_stop_value (b : Nat) (v : Value) (i : Nat) (rest : List Tok)
    (acc : List Value) (h : ¬ i < b) :
    parseListF b (.value v i :: rest) acc = acc := by
  simp [parseListF, Parser.parseList.eq_def, Tok.indent, h]

theorem parseListR_stop_value (b : Nat) (v : Value) (i : Nat) (rest : List Tok)
    (acc : List Value) (h : ¬ i < b) :
    parseListR b (.value v i :: rest) acc = .value v i :: rest := by
  simp [parseListR, Parser.parseList.eq_def, Tok.indent, h]

theorem Parser.parse_eq (ts : List Tok) :
    Parser.parse ts = match ts with
      | [] => .null
      | _ :: _ => parseValueF 0 ts := by
  cases ts <;> rfl

/-! Step lemmas for the dumper: the well-founded equations restated as
plain rewrites. -/

theorem dump_null (w level : Nat) : Dumper.dump w .null level = "null" := by
  rw [Dumper.dump.eq_def]

theorem dump_bool (w level : Nat) (b : Bool) :
    Dumper.dump w (.bool b) level = if b then "true" else "false" := by
  rw [Dumper.dump.eq_def]

theorem dump_int (w level : Nat) (n : Int) :
    Dumper.dump w (.int n) level = intToString n := by
  rw [Dumper.dump.eq_def]

theorem dump_float (w level : Nat) (t : String) :
    Dumper.dump w (.float t) level = t := by
  rw [Dumper.dump.eq_def]

theorem dump_str (w level : Nat) (s : String) :
    Dumper.dump w (.str s) level =
      if mustQuote s then "\"" ++ s ++ "\"" else s := by
  rw [Dumper.dump.eq_def]

theorem dump_seq (w level : Nat) (xs : List Value) :
    Dumper.dump w (.seq xs) level = Dumper.dumpList w xs level := by
  rw [Dumper.dump.eq_def]

theorem dump_map (w level : Nat) (es : List (String × Value)) :
    Dumper.dump w (.map es) level = Dumper.dumpMapping w es level := by
  rw [Dumper.dump.eq_def]

theorem dumpList_nil (w level : Nat) : Dumper.dumpList w [] level = "[]" := by
  rw [Dumper.dumpList.eq_def]

theorem dumpList_cons (w level : Nat) (x : Value) (xr : List Value) :
    Dumper.dumpList w (x :: xr) level =
      joinNl (Dumper.itemLines w (x :: xr) level) := by
  rw [Dumper.dumpList.eq_def]

theorem itemLines_nil (w level : Nat) : Dumper.itemLines w [] level = [] := by
  rw [Dumper.itemLines.eq_def]

theorem itemLines_cons (w level : Nat) (x : Value) (xr : List Value) :
    Dumper.itemLines w (x :: xr) level =
      Dumper.itemLine w x level :: Dumper.itemLines w xr level := by
  rw [Dumper.itemLines.eq_def]

theorem itemLine_eq (w level : Nat) (x : Value) :
    Dumper.itemLine w x level =
      match x with
      | .seq ys =>
        indentSpaces w level ++ "- " ++
          ⟨(Dumper.dump w (.seq ys) (level + 1)).data.dropWhile isPyWs⟩
      | .map es =>
        indentSpaces w level ++ "- " ++
          ⟨(Dumper.dump w (.map es) (level + 1)).data.dropWhile isPyWs⟩
      | v => indentSpaces w level ++ "- " ++ Dumper.dump w v 0 := by
  rw [Dumper.itemLine.eq_def]

theorem dumpMapping_nil (w level : Nat) :
    Dumper.dumpMapping w [] level = "\x7b\x7d" := by
  rw [Dumper.dumpMapping.eq_def]

theorem dumpMapping_cons (w level : Nat) (e : String × Value)
    (er : List (String × Value)) :
    Dumper.dumpMapping w (e :: er) level =
      joinNl (Dumper.entryLines w (e :: er) level) := by
  rw [Dumper.dumpMapping.eq_def]

theorem entryLines_nil (w level : Nat) : Dumper.entryLines w [] level = [] := by
  rw [Dumper.entryLines.eq_def]

theorem entryLines_cons (w level : Nat) (k1 : String) (v : Value)
    (er : List (String × Value)) :
    Dumper.entryLines w ((k1, v) :: er) level =
      Dumper.entryLine w k1 v level :: Dumper.entryLines w er level := by
  rw [Dumper.entryLines.eq_def]

theorem entryLine_eq (w level : Nat) (k1 : String) (v : Value) :
    Dumper.entryLine w k1 v level =
      match v with
      | .seq (y :: ys) =>
        indentSpaces w level ++ k1 ++ ":\n" ++
          Dumper.dump w (.seq (y :: ys)) (level + 1)
      | .map (f :: fs) =>
        indentSpaces w level ++ k1 ++ ":\n" ++
          Dumper.dump w (.map (f :: fs)) (level + 1)
      | v => indentSpaces w level ++ k1 ++ ": " ++ Dumper.dump w v 0 := by
  rw [Dumper.entryLine.eq_def]


/-! Utility lemmas about stripping, newline splitting and joining. -/

theorem dropWhile_eq_self_of_head (l : List Char)
    (h : ∀ c, l.head? = some c → isPyWs c = false) :
    l.dropWhile isPyWs = l := by
  cases l with
  | nil => rfl
  | cons c t => rw [List.dropWhile_cons, if_neg (by simp [h c rfl])]

theorem dropRightWhileWs_eq_self_of_last (l : List Char)
    (h : ∀ c, l.getLast? = some c → isPyWs c = false) :
    dropRightWhileWs l = l := by
  unfold dropRightWhileWs
  rw [dropWhile_eq_self_of_head, List.reverse_reverse]
  intro c hc
  exact h c (by rwa [List.head?_reverse] at hc)

theorem pyStripL_id_of_edges (l : List Char)
    (h1 : ∀ c, l.head? = some c → isPyWs c = false)
    (h2 : ∀ c, l.getLast? = some c → isPyWs c = false) :
    pyStripL l = l := by
  unfold pyStripL
  rw [dropWhile_eq_self_of_head l h1, dropRightWhileWs_eq_self_of_last l h2]

theorem dropWhile_eq_self_parts (l : List Char) (h : pyStripL l = l) :
    l.dropWhile isPyWs = l ∧ dropRightWhileWs l = l := by
  have hsub1 : (l.dropWhile isPyWs).length ≤ l.length :=
    (List.dropWhile_suffix isPyWs).sublist.length_le
  have hsub2 : (dropRightWhileWs (l.dropWhile isPyWs)).length ≤
      (l.dropWhile isPyWs).length := by
    unfold dropRightWhileWs
    have := (List.dropWhile_suffix (l := (l.dropWhile isPyWs).reverse)
      isPyWs).sublist.length_le
    simpa using this
  have hlen : (pyStripL l).length = l.length := by rw [h]
  unfold pyStripL at hlen
  have h1 : (l.dropWhile isPyWs).length = l.length := by omega
  have hdrop : l.dropWhile isPyWs = l :=
    (List.dropWhile_suffix isPyWs).sublist.eq_of_length h1
  refine ⟨hdrop, ?_⟩
  have : pyStripL l = dropRightWhileWs l := by unfold pyStripL; rw [hdrop]
  rw [← this, h]

theorem head_not_ws_of_strip_id (l : List Char) (h : pyStripL l = l) :
    ∀ c, l.head? = some c → isPyWs c = false := by
  intro c hc
  have hdrop := (dropWhile_eq_self_parts l h).1
  by_contra hws
  cases l with
  | nil => simp at hc
  | cons a t =>
    simp at hc
    subst hc
    rw [List.dropWhile_cons, if_pos (by simpa using hws)] at hdrop
    have hle : (t.dropWhile isPyWs).length ≤ t.length :=
      (List.dropWhile_suffix isPyWs).sublist.length_le
    have := congrArg List.length hdrop
    simp at this
    omega

theorem last_not_ws_of_strip_id (l : List Char) (h : pyStripL l = l) :
    ∀ c, l.getLast? = some c → isPyWs c = false := by
  intro c hc
  have hdropr := (dropWhile_eq_self_parts l h).2
  unfold dropRightWhileWs at hdropr
  have hrev : l.reverse.dropWhile isPyWs = l.reverse := by
    have := congrArg List.reverse hdropr
    simpa using this
  have hhead : l.reverse.head? = some c := by rwa [List.head?_reverse]
  by_contra hws
  cases hl : l.reverse with
  | nil => rw [hl] at hhead; simp at hhead
  | cons a t =>
    rw [hl] at hhead hrev
    simp at hhead
    subst hhead
    rw [List.dropWhile_cons, if_pos (by simpa using hws)] at hrev
    have hle : (t.dropWhile isPyWs).length ≤ t.length :=
      (List.dropWhile_suffix isPyWs).sublist.length_le
    have := congrArg List.length hrev
    simp at this
    omega

theorem dropWhile_replicate_space (m : Nat) (content : List Char) :
    (List.replicate m ' ' ++ content).dropWhile isPyWs =
      content.dropWhile isPyWs := by
  induction m with
  | zero => simp
  | succ n ih =>
    rw [List.replicate_succ, List.cons_append, List.dropWhile_cons,
      if_pos (by simp [isPyWs])]
    exact ih

theorem pyStripL_indented (m : Nat) (content : List Char)
    (h1 : ∀ c, content.head? = some c → isPyWs c = false)
    (h2 : ∀ c, content.getLast? = some c → isPyWs c = false) :
    pyStripL (List.replicate m ' ' ++ content) = content := by
  unfold pyStripL
  rw [dropWhile_replicate_space, dropWhile_eq_self_of_head content h1,
    dropRightWhileWs_eq_self_of_last content h2]

theorem indent_of_indented (m : Nat) (content : List Char)
    (h1 : ∀ c, content.head? = some c → isPyWs c = false) :
    (List.replicate m ' ' ++ content).length -
      ((List.replicate m ' ' ++ content).dropWhile isPyWs).length = m := by
  rw [dropWhile_replicate_space, dropWhile_eq_self_of_head content h1]
  simp

theorem splitColonSpace_cons (c : Char) (r : List Char) :
    splitColonSpace (c :: r) =
      if c = ':' ∧ r.head? = some ' ' then some ([], r.tail)
      else (splitColonSpace r).map (fun p => (c :: p.1, p.2)) := rfl

theorem splitColonSpace_none_of_no_colon (l : List Char)
    (h : ∀ c ∈ l, c ≠ ':') : splitColonSpace l = none := by
  induction l with
  | nil => rfl
  | cons c r ih =>
    rw [splitColonSpace_cons,
      if_neg (by intro hc; exact h c (by simp) hc.1),
      ih (fun x hx => h x (by simp [hx]))]
    rfl

theorem splitColonSpace_append (k r : List Char)
    (hk : splitColonSpace k = none) :
    splitColonSpace (k ++ ':' :: ' ' :: r) = some (k, r) := by
  induction k with
  | nil =>
    rw [List.nil_append, splitColonSpace_cons, if_pos (by simp)]
    rfl
  | cons c k' ih =>
    rw [splitColonSpace_cons] at hk
    rw [List.cons_append, splitColonSpace_cons]
    by_cases hcond : c = ':' ∧ (k' ++ ':' :: ' ' :: r).head? = some ' '
    · exfalso
      rcases hcond with ⟨hc, hh⟩
      cases k' with
      | nil => simp at hh
      | cons c2 k2 =>
        simp at hh
        rw [if_pos ⟨hc, by simp [hh]⟩] at hk
        cases hk
    · rw [if_neg hcond]
      have hk' : splitColonSpace k' = none := by
        by_cases hcond2 : c = ':' ∧ k'.head? = some ' '
        · rw [if_pos hcond2] at hk; cases hk
        · rw [if_neg hcond2] at hk
          exact Option.map_eq_none.mp hk
      rw [ih hk']
      rfl

theorem splitNl_cons (c : Char) (r : List Char) :
    splitNl (c :: r) =
      if c = '\n' then [] :: splitNl r
      else
        match splitNl r with
        | [] => [[c]]
        | h :: t => (c :: h) :: t := rfl

theorem splitNl_ne_nil (l : List Char) : splitNl l ≠ [] := by
  induction l with
  | nil => simp [splitNl]
  | cons c r ih =>
    rw [splitNl_cons]
    by_cases hc : c = '\n'
    · simp [hc]
    · rw [if_neg hc]
      cases h2 : splitNl r with
      | nil => exact absurd h2 ih
      | cons h3 t3 => simp

theorem splitNl_append (a b : List Char) :
    splitNl (a ++ '\n' :: b) = splitNl a ++ splitNl b := by
  induction a with
  | nil =>
    rw [List.nil_append, splitNl_cons, if_pos rfl]
    rfl
  | cons c a' ih =>
    rw [List.cons_append, splitNl_cons, splitNl_cons (r := a')]
    by_cases hc : c = '\n'
    · rw [if_pos hc, if_pos hc, ih]
      rfl
    · rw [if_neg hc, if_neg hc, ih]
      cases h2 : splitNl a' with
      | nil => exact absurd h2 (splitNl_ne_nil a')
      | cons h3 t3 => simp

theorem splitNl_no_newline (l : List Char) (h : ∀ c ∈ l, c ≠ '\n') :
    splitNl l = [l] := by
  induction l with
  | nil => rfl
  | cons c r ih =>
    rw [splitNl_cons, if_neg (h c (by simp)),
      ih (fun x hx => h x (by simp [hx]))]

theorem joinNl_data_cons (l : String) (r : List String) (hr : r ≠ []) :
    (joinNl (l :: r)).data = l.data ++ '\n' :: (joinNl r).data := by
  cases r with
  | nil => exact absurd rfl hr
  | cons a b =>
    show (l ++ "\n" ++ joinNl (a :: b)).data = _
    simp [String.data_append]

theorem scanL_joinNl_cons (l : String) (r : List String) (hr : r ≠ []) :
    scanL (joinNl (l :: r)).data = scanL l.data ++ scanL (joinNl r).data := by
  rw [joinNl_data_cons l r hr]
  unfold scanL
  rw [splitNl_append, List.filterMap_append]


/-! Decimal rendering of integers: the printed digits re-parse to the same
number, and every printed character is a digit (or a leading minus). -/

theorem digitChar_props (d : Nat) (hd : d < 10) :
    (digitChar d).isDigit = true ∧ digitVal (digitChar d) = d ∧
    isPyWs (digitChar d) = false ∧ (digitChar d).toLower = digitChar d ∧
    digitChar d ∉ mustQuoteChars ∧ digitChar d ≠ '\n' ∧
    digitChar d ≠ '-' ∧ digitChar d ≠ '+' ∧ digitChar d ≠ '_' ∧
    digitChar d ≠ ' ' ∧ digitChar d ≠ '#' ∧ digitChar d ≠ ':' ∧
    digitChar d ≠ 't' ∧ digitChar d ≠ 'y' ∧ digitChar d ≠ 'o' ∧
    digitChar d ≠ 'f' ∧ digitChar d ≠ 'n' ∧ digitChar d ≠ '~' := by
  interval_cases d <;> exact (by decide)

theorem natDigits_spec (fuel : Nat) :
    ∀ n, n ≤ fuel →
      natDigits fuel n ≠ [] ∧
      (∀ c ∈ natDigits fuel n, ∃ d, d < 10 ∧ c = digitChar d) ∧
      ∀ acc, (natDigits fuel n).foldl (fun a c => 10 * a + digitVal c) acc =
        acc * 10 ^ (natDigits fuel n).length + n := by
  induction fuel with
  | zero =>
    intro n hn
    interval_cases n
    refine ⟨by simp [natDigits], ?_, ?_⟩
    · intro c hc
      simp [natDigits] at hc
      exact ⟨0, by omega, hc⟩
    · intro acc
      simp [natDigits, (digitChar_props 0 (by omega)).2.1]
      ring
  | succ fuel ih =>
    intro n hn
    by_cases hlt : n < 10
    · rw [show natDigits (fuel + 1) n = [digitChar n] from by
        rw [natDigits]; rw [if_pos hlt]]
      refine ⟨by simp, ?_, ?_⟩
      · intro c hc
        simp at hc
        exact ⟨n, hlt, hc⟩
      · intro acc
        simp [(digitChar_props n hlt).2.1]
        ring
    · have hdiv : n / 10 ≤ fuel := by
        have := Nat.div_lt_self (by omega : 0 < n) (by omega : 1 < 10)
        omega
      obtain ⟨hne, hmem, hfold⟩ := ih (n / 10) hdiv
      rw [show natDigits (fuel + 1) n =
          natDigits fuel (n / 10) ++ [digitChar (n % 10)] from by
        rw [natDigits]; rw [if_neg hlt]]
      have hmod : n % 10 < 10 := Nat.mod_lt _ (by omega)
      refine ⟨by simp, ?_, ?_⟩
      · intro c hc
        rw [List.mem_append] at hc
        rcases hc with hc | hc
        · exact hmem c hc
        · simp at hc
          exact ⟨n % 10, hmod, hc⟩
      · intro acc
        rw [List.foldl_append]
        simp only [List.foldl_cons, List.foldl_nil]
        rw [hfold acc, (digitChar_props (n % 10) hmod).2.1]
        rw [List.length_append]
        simp only [List.length_cons, List.length_nil]
        rw [pow_succ]
        have := Nat.div_add_mod n 10
        ring_nf
        omega

theorem digitsCore_cons (acc : Nat) (c : Char) (r : List Char) :
    digitsCore acc (c :: r) =
      if c.isDigit then digitsCore (10 * acc + digitVal c) r
      else if c = '_' then
        match r with
        | c2 :: r2 =>
          if c2.isDigit then digitsCore (10 * acc + digitVal c2) r2 else none
        | [] => none
      else none := by
  cases r <;> rfl

theorem digitsCore_digits (l : List Char) :
    ∀ acc, (∀ c ∈ l, c.isDigit = true) →
      digitsCore acc l = some (l.foldl (fun a c => 10 * a + digitVal c) acc) := by
  induction l with
  | nil => intro acc _; rfl
  | cons c r ih =>
    intro acc h
    rw [digitsCore_cons, if_pos (h c (by simp))]
    rw [ih _ (fun x hx => h x (by simp [hx]))]
    rfl

theorem digitStart_natDigits (fuel n : Nat) (hn : n ≤ fuel) :
    digitStart (natDigits fuel n) = some n := by
  obtain ⟨hne, hmem, hfold⟩ := natDigits_spec fuel n hn
  cases hds : natDigits fuel n with
  | nil => exact absurd hds hne
  | cons c rest =>
    obtain ⟨d, hd, hcd⟩ := hmem c (by rw [hds]; simp)
    have hdig : c.isDigit = true := by
      rw [hcd]; exact (digitChar_props d hd).1
    rw [show digitStart (c :: rest) =
        if c.isDigit then digitsCore (digitVal c) rest else none from rfl]
    rw [if_pos hdig]
    rw [digitsCore_digits rest (digitVal c) (fun x hx => by
      obtain ⟨d2, hd2, hcd2⟩ := hmem x (by rw [hds]; simp [hx])
      rw [hcd2]; exact (digitChar_props d2 hd2).1)]
    have := hfold 0
    rw [hds] at this
    simp only [List.foldl_cons] at this
    simp only [Nat.mul_zero, Nat.zero_add, Nat.zero_mul] at this
    rw [this]

theorem natToString_data (n : Nat) : (natToString n).data = natDigits n n := rfl

theorem intToString_data_nonneg (m : Nat) :
    (intToString (Int.ofNat m)).data = natDigits m m := rfl

theorem intToString_data_neg (m : Nat) :
    (intToString (Int.negSucc m)).data = '-' :: natDigits (m + 1) (m + 1) := by
  show ("-" ++ natToString (m + 1)).data = _
  rw [String.data_append]
  rfl

theorem pyInt?_intToString (n : Int) : pyInt? (intToString n).data = some n := by
  cases n with
  | ofNat m =>
    rw [intToString_data_nonneg]
    obtain ⟨hne, hmem, _⟩ := natDigits_spec m m (Nat.le_refl m)
    cases hds : natDigits m m with
    | nil => exact absurd hds hne
    | cons c rest =>
      obtain ⟨d, hd, hcd⟩ := hmem c (by rw [hds]; simp)
      rw [show pyInt? (c :: rest) =
          if c = '+' then (digitStart rest).map Int.ofNat
          else if c = '-' then (digitStart rest).map (fun n => -(n : Int))
          else (digitStart (c :: rest)).map Int.ofNat from rfl]
      rw [if_neg (by rw [hcd]; exact (digitChar_props d hd).2.2.2.2.2.2.2.1),
        if_neg (by rw [hcd]; exact (digitChar_props d hd).2.2.2.2.2.2.1)]
      rw [← hds, digitStart_natDigits m m (Nat.le_refl m)]
      rfl
  | negSucc m =>
    rw [intToString_data_neg]
    rw [show pyInt? ('-' :: natDigits (m + 1) (m + 1)) =
        if '-' = '+' then (digitStart (natDigits (m + 1) (m + 1))).map Int.ofNat
        else if '-' = '-' then
          (digitStart (natDigits (m + 1) (m + 1))).map (fun n => -(n : Int))
        else (digitStart ('-' :: natDigits (m + 1) (m + 1))).map Int.ofNat
      from rfl]
    rw [if_neg (by decide), if_pos rfl,
      digitStart_natDigits (m + 1) (m + 1) (Nat.le_refl _)]
    simp [Int.negSucc_eq]

theorem intToString_chars (n : Int) :
    ∀ c ∈ (intToString n).data, (∃ d, d < 10 ∧ c = digitChar d) ∨ c = '-' := by
  cases n with
  | ofNat m =>
    rw [intToString_data_nonneg]
    intro c hc
    exact Or.inl ((natDigits_spec m m (Nat.le_refl m)).2.1 c hc)
  | negSucc m =>
    rw [intToString_data_neg]
    intro c hc
    rcases List.mem_cons.mp hc with hc | hc
    · exact Or.inr hc
    · exact Or.inl ((natDigits_spec (m + 1) (m + 1) (Nat.le_refl _)).2.1 c hc)

theorem intToString_ne_nil (n : Int) : (intToString n).data ≠ [] := by
  cases n with
  | ofNat m =>
    rw [intToString_data_nonneg]
    exact (natDigits_spec m m (Nat.le_refl m)).1
  | negSucc m =>
    rw [intToString_data_neg]
    simp


/-! Characterisation of the integer grammar accepted by `pyInt?`. -/

theorem restDigits_cons_digit (c : Char) (r : List Char)
    (hc : c.isDigit = true) : restDigits (c :: r) ↔ restDigits r := by
  unfold restDigits
  constructor
  · rintro ⟨hall, hlast, hchain⟩
    refine ⟨fun x hx => hall x (by simp [hx]), ?_, (List.chain'_cons'.mp hchain).2⟩
    intro x hx
    cases r with
    | nil => simp at hx
    | cons a b =>
      exact hlast x (by rw [List.getLast?_cons_cons]; exact hx)
  · rintro ⟨hall, hlast, hchain⟩
    refine ⟨?_, ?_, ?_⟩
    · intro x hx
      rcases List.mem_cons.mp hx with hx | hx
      · subst hx; exact Or.inl hc
      · exact hall x hx
    · intro x hx
      cases r with
      | nil =>
        simp at hx
        subst hx; exact hc
      | cons a b =>
        rw [List.getLast?_cons_cons] at hx
        exact hlast x hx
    · rw [List.chain'_cons']
      refine ⟨?_, hchain⟩
      intro y _ hy
      rw [hy.1] at hc
      simp at hc

theorem restDigits_underscore (c2 : Char) (r2 : List Char)
    (hc2 : c2.isDigit = true) :
    restDigits ('_' :: c2 :: r2) ↔ restDigits r2 := by
  rw [show restDigits ('_' :: c2 :: r2) ↔ restDigits (c2 :: r2) from ?_,
    restDigits_cons_digit c2 r2 hc2]
  unfold restDigits
  constructor
  · rintro ⟨hall, hlast, hchain⟩
    refine ⟨fun x hx => hall x (by simp [hx]), ?_, (List.chain'_cons'.mp hchain).2⟩
    intro x hx
    exact hlast x (by rw [List.getLast?_cons_cons]; exact hx)
  · rintro ⟨hall, hlast, hchain⟩
    refine ⟨?_, ?_, ?_⟩
    · intro x hx
      rcases List.mem_cons.mp hx with hx | hx
      · subst hx; exact Or.inr rfl
      · exact hall x hx
    · intro x hx
      rw [List.getLast?_cons_cons] at hx
      exact hlast x hx
    · rw [List.chain'_cons']
      refine ⟨?_, hchain⟩
      intro y hy hcontra
      simp at hy
      rw [hy, hcontra.2] at hc2
      simp at hc2

theorem digitsCore_isSome_iff :
    ∀ N l acc, l.length ≤ N →
      ((digitsCore acc l).isSome = true ↔ restDigits l) := by
  intro N
  induction N with
  | zero =>
    intro l acc hl
    have hnil : l = [] := List.length_eq_zero.mp (by omega)
    subst hnil
    simp [digitsCore, restDigits]
  | succ N ih =>
    intro l acc hl
    cases l with
    | nil => simp [digitsCore, restDigits]
    | cons c r =>
      rw [digitsCore_cons]
      by_cases hc : c.isDigit = true
      · rw [if_pos hc, ih r _ (by simp at hl; omega),
          restDigits_cons_digit c r hc]
      · rw [if_neg hc]
        by_cases hu : c = '_'
        · rw [if_pos hu]
          subst hu
          cases r with
          | nil =>
            simp only [Option.isSome_none]
            constructor
            · intro h; cases h
            · rintro ⟨_, hlast, _⟩
              have := hlast '_' (by simp)
              simp at this
          | cons c2 r2 =>
            rw [show (match c2 :: r2 with
                | c2 :: r2 =>
                  if c2.isDigit = true then
                    digitsCore (10 * acc + digitVal c2) r2
                  else none
                | [] => none) =
              if c2.isDigit = true then digitsCore (10 * acc + digitVal c2) r2
              else none from rfl]
            by_cases hc2 : c2.isDigit = true
            · rw [if_pos hc2, ih r2 _ (by simp at hl; omega),
                restDigits_underscore c2 r2 hc2]
            · rw [if_neg hc2]
              simp only [Option.isSome_none]
              constructor
              · intro h; cases h
              · rintro ⟨hall, _, hchain⟩
                rcases hall c2 (by simp) with h | h
                · exact absurd h hc2
                · rw [List.chain'_cons] at hchain
                  exact absurd ⟨rfl, h⟩ hchain.1
        · rw [if_neg hu]
          simp only [Option.isSome_none]
          constructor
          · intro h; cases h
          · rintro ⟨hall, _, _⟩
            rcases hall c (by simp) with h | h
            · exact absurd h hc
            · exact absurd h hu

theorem digitStart_isSome_iff (l : List Char) :
    (digitStart l).isSome = true ↔ groupedDigits l := by
  cases l with
  | nil =>
    simp [digitStart, groupedDigits]
  | cons c r =>
    rw [show digitStart (c :: r) =
        if c.isDigit then digitsCore (digitVal c) r else none from rfl]
    by_cases hc : c.isDigit = true
    · rw [if_pos hc,
        digitsCore_isSome_iff r.length r (digitVal c) (Nat.le_refl _)]
      unfold groupedDigits
      rw [← restDigits_cons_digit c r hc]
      unfold restDigits
      constructor
      · rintro ⟨hall, hlast, hchain⟩
        exact ⟨by simp, hall, by intro x hx; simp at hx; rw [← hx]; exact hc,
          hlast, hchain⟩
      · rintro ⟨_, hall, _, hlast, hchain⟩
        exact ⟨hall, hlast, hchain⟩
    · rw [if_neg hc]
      simp only [Option.isSome_none]
      constructor
      · intro h; cases h
      · rintro ⟨_, _, hhead, _, _⟩
        exact absurd (hhead c (by simp)) hc

theorem pyInt?_isSome_iff (l : List Char) :
    (pyInt? l).isSome = true ↔ pyIntShape l := by
  cases l with
  | nil => simp [pyInt?, pyIntShape]
  | cons c r =>
    rw [show pyInt? (c :: r) =
        if c = '+' then (digitStart r).map Int.ofNat
        else if c = '-' then (digitStart r).map (fun n => -(n : Int))
        else (digitStart (c :: r)).map Int.ofNat from rfl]
    rw [show pyIntShape (c :: r) =
        if c = '+' ∨ c = '-' then groupedDigits r else groupedDigits (c :: r)
      from rfl]
    by_cases hp : c = '+'
    · rw [if_pos hp, if_pos (show c = '+' ∨ c = '-' from Or.inl hp)]
      simp [digitStart_isSome_iff]
    · by_cases hm : c = '-'
      · rw [if_neg hp, if_pos hm,
          if_pos (show c = '+' ∨ c = '-' from Or.inr hm)]
        rw [← digitStart_isSome_iff]
        cases digitStart r <;> simp
      · rw [if_neg hp, if_neg hm,
          if_neg (show ¬(c = '+' ∨ c = '-') from by tauto)]
        simp [digitStart_isSome_iff]


/-! Consumption discipline of the parser: every parse call consumes a
contiguous prefix of its token input, and (for calls whose base is at most
the first token's indent) every consumed token sits at or above the base. -/

theorem parser_consumes :
    ∀ N (ts : List Tok), ts.length ≤ N →
      ((∀ t, ts.head? = some t → ∀ b, b ≤ t.indent →
          ∃ pre, ts = pre ++ parseValueR b ts ∧ ∀ u ∈ pre, b ≤ u.indent) ∧
        (∀ b acc, ∃ pre, ts = pre ++ parseMappingR b ts acc ∧
          ∀ u ∈ pre, b ≤ u.indent) ∧
        (∀ b acc, ∃ pre, ts = pre ++ parseListR b ts acc ∧
          ∀ u ∈ pre, b ≤ u.indent)) ∧
      (∀ b, ∃ pre, ts = pre ++ parseValueR b ts) := by
  intro N
  induction N with
  | zero =>
    intro ts hts
    have hnil : ts = [] := List.length_eq_zero.mp (by omega)
    subst hnil
    refine ⟨⟨?_, ?_, ?_⟩, ?_⟩
    · intro t ht; cases ht
    · intro b acc; exact ⟨[], by rw [parseMappingR_nil]; simp, by simp⟩
    · intro b acc; exact ⟨[], by rw [parseListR_nil]; simp, by simp⟩
    · intro b; exact ⟨[], by rw [parseValueR_nil]; simp⟩
  | succ N ih =>
    intro ts hts
    cases ts with
    | nil =>
      refine ⟨⟨?_, ?_, ?_⟩, ?_⟩
      · intro t ht; cases ht
      · intro b acc; exact ⟨[], by rw [parseMappingR_nil]; simp, by simp⟩
      · intro b acc; exact ⟨[], by rw [parseListR_nil]; simp, by simp⟩
      · intro b; exact ⟨[], by rw [parseValueR_nil]; simp⟩
    | cons t rest =>
      have hrest : rest.length ≤ N := by simp at hts; omega
      have hL : ∀ b acc, ∃ pre, t :: rest = pre ++ parseListR b (t :: rest) acc ∧
          ∀ u ∈ pre, b ≤ u.indent := by
        intro b acc
        by_cases hbr : t.indent < b
        · refine ⟨[], ?_, by simp⟩
          rw [parseListR_break _ _ _ _ hbr]
          simp
        · cases t with
          | listItem raw i =>
            simp only [Tok.indent] at hbr
            rw [parseListR_item b raw i rest acc hbr]
            obtain ⟨pre', hpre', hall'⟩ := ((ih rest hrest).1).2.2 b
              (acc ++ [Scanner.parseValueL raw.data])
            refine ⟨.listItem raw i :: pre', ?_, ?_⟩
            · rw [List.cons_append, ← hpre']
            · intro u hu
              rcases List.mem_cons.mp hu with hu | hu
              · subst hu; simp [Tok.indent]; omega
              · exact hall' u hu
          | key k i =>
            simp only [Tok.indent] at hbr
            refine ⟨[], ?_, by simp⟩
            rw [parseListR_stop_key b k i rest acc hbr]
            simp
          | keyValue k v i =>
            simp only [Tok.indent] at hbr
            refine ⟨[], ?_, by simp⟩
            rw [parseListR_stop_keyValue b k v i rest acc hbr]
            simp
          | value v i =>
            simp only [Tok.indent] at hbr
            refine ⟨[], ?_, by simp⟩
            rw [parseListR_stop_value b v i rest acc hbr]
            simp
      have hM : ∀ b acc, ∃ pre, t :: rest = pre ++ parseMappingR b (t :: rest) acc ∧
          ∀ u ∈ pre, b ≤ u.indent := by
        intro b acc
        by_cases hbr : t.indent < b
        · refine ⟨[], ?_, by simp⟩
          rw [parseMappingR_break _ _ _ _ hbr]
          simp
        · cases t with
          | keyValue k v i =>
            simp only [Tok.indent] at hbr
            rw [parseMappingR_keyValue b k v i rest acc hbr]
            obtain ⟨pre', hpre', hall'⟩ := ((ih rest hrest).1).2.1 b
              (insertAssoc acc k v)
            refine ⟨.keyValue k v i :: pre', ?_, ?_⟩
            · rw [List.cons_append, ← hpre']
            · intro u hu
              rcases List.mem_cons.mp hu with hu | hu
              · subst hu; simp [Tok.indent]; omega
              · exact hall' u hu
          | key k i =>
            simp only [Tok.indent] at hbr
            cases rest with
            | nil =>
              refine ⟨[.key k i], ?_, ?_⟩
              · rw [parseMappingR_key_end b k i acc hbr]; simp
              · intro u hu
                simp at hu
                subst hu; simp [Tok.indent]; omega
            | cons t2 rest2 =>
              have hrest2 : (t2 :: rest2).length ≤ N := hrest
              by_cases hdeep : i < t2.indent
              · rw [parseMappingR_key_deep b k i t2 rest2 acc hbr hdeep]
                obtain ⟨preV, hpreV, hallV⟩ := ((ih (t2 :: rest2) hrest2).1).1
                  t2 rfl t2.indent (Nat.le_refl _)
                have hlenV : (parseValueR t2.indent (t2 :: rest2)).length ≤ N := by
                  have hlen := congrArg List.length hpreV
                  rw [List.length_append] at hlen
                  omega
                obtain ⟨preM, hpreM, hallM⟩ :=
                  ((ih (parseValueR t2.indent (t2 :: rest2)) hlenV).1).2.1 b
                    (insertAssoc acc k (parseValueF t2.indent (t2 :: rest2)))
                refine ⟨.key k i :: (preV ++ preM), ?_, ?_⟩
                · rw [List.cons_append, List.append_assoc, ← hpreM, ← hpreV]
                · intro u hu
                  rcases List.mem_cons.mp hu with hu | hu
                  · subst hu; simp [Tok.indent]; omega
                  · rcases List.mem_append.mp hu with hu | hu
                    · have := hallV u hu
                      omega
                    · exact hallM u hu
              · rw [parseMappingR_key_shallow b k i t2 rest2 acc hbr hdeep]
                obtain ⟨pre', hpre', hall'⟩ := ((ih (t2 :: rest2) hrest2).1).2.1 b
                  (insertAssoc acc k .null)
                refine ⟨.key k i :: pre', ?_, ?_⟩
                · rw [List.cons_append, ← hpre']
                · intro u hu
                  rcases List.mem_cons.mp hu with hu | hu
                  · subst hu; simp [Tok.indent]; omega
                  · exact hall' u hu
          | listItem raw i =>
            simp only [Tok.indent] at hbr
            refine ⟨[], ?_, by simp⟩
            rw [parseMappingR_stop_listItem b raw i rest acc hbr]
            simp
          | value v i =>
            simp only [Tok.indent] at hbr
            refine ⟨[], ?_, by simp⟩
            rw [parseMappingR_stop_value b v i rest acc hbr]
            simp
      have hV : ∀ u, (t :: rest).head? = some u → ∀ b, b ≤ u.indent →
          ∃ pre, t :: rest = pre ++ parseValueR b (t :: rest) ∧
            ∀ u ∈ pre, b ≤ u.indent := by
        intro u hu b hb
        simp at hu
        subst hu
        cases t with
        | value v i =>
          rw [parseValueR_value]
          refine ⟨[.value v i], by simp, ?_⟩
          intro x hx
          simp at hx
          subst hx
          simpa [Tok.indent] using hb
        | listItem raw i =>
          rw [parseValueR_listItem]
          exact hL b []
        | key k i =>
          rw [parseValueR_key]
          exact hM b []
        | keyValue k v i =>
          rw [parseValueR_keyValue]
          exact hM b []
      refine ⟨⟨hV, hM, hL⟩, ?_⟩
      intro b
      cases t with
      | value v i =>
        refine ⟨[.value v i], ?_⟩
        rw [parseValueR_value]
        simp
      | listItem raw i =>
        rw [parseValueR_listItem]
        obtain ⟨pre, hpre, _⟩ := hL b []
        exact ⟨pre, hpre⟩
      | key k i =>
        rw [parseValueR_key]
        obtain ⟨pre, hpre, _⟩ := hM b []
        exact ⟨pre, hpre⟩
      | keyValue k v i =>
        rw [parseValueR_keyValue]
        obtain ⟨pre, hpre, _⟩ := hM b []
        exact ⟨pre, hpre⟩

/-! Rendering of Good scalars: the dumped text of a Good scalar is a clean
single-line fragment that scalar coercion maps back to the same Value. -/

theorem pyStripL_id_of_all (l : List Char)
    (h : ∀ c ∈ l, isPyWs c = false) : pyStripL l = l :=
  pyStripL_id_of_edges l
    (fun c hc => h c (List.mem_of_mem_head? (by rw [hc]; simp)))
    (fun c hc => h c (List.mem_of_getLast?_eq_some hc))

theorem take2_ne_dash_space (l : List Char) (h : ∀ c ∈ l, c ≠ ' ') :
    l.take 2 ≠ ['-', ' '] := by
  intro hc
  have : ' ' ∈ l.take 2 := by rw [hc]; simp
  exact h ' ' (List.mem_of_mem_take this) rfl

theorem lowerL_head? (l : List Char) :
    (lowerL l).head? = l.head?.map Char.toLower := by
  unfold lowerL
  rw [List.head?_map]

theorem not_word_of_head (l : List Char) (c : Char) (hh : l.head? = some c)
    (ht : c.toLower ∉ (['t', 'y', 'o', 'f', 'n', '~'] : List Char)) :
    lowerL l ∉ boolNullWords := by
  intro hw
  have hhead : (lowerL l).head? = some c.toLower := by
    rw [lowerL_head?, hh]
    rfl
  simp only [boolNullWords, List.mem_cons, List.not_mem_nil, or_false] at hw
  rcases hw with hw | hw | hw | hw | hw | hw | hw | hw <;>
    (rw [hw] at hhead
     simp at hhead
     rw [hhead] at ht
     simp at ht)

theorem mustQuote_eq_false_of_plain (s : String)
    (h : ∀ c ∈ s.data, c ∉ mustQuoteChars) : mustQuote s = false := by
  unfold mustQuote
  rw [List.any_eq_false]
  intro c hc hcontains
  exact h c (by simpa using hcontains) hc

theorem dump_scalar_level (w : Nat) (v : Value) (hs : v.isScalar)
    (L L' : Nat) : Dumper.dump w v L = Dumper.dump w v L' := by
  cases v with
  | null => rw [dump_null, dump_null]
  | bool b => rw [dump_bool, dump_bool]
  | int n => rw [dump_int, dump_int]
  | float t => rw [dump_float, dump_float]
  | str s => rw [dump_str, dump_str]
  | seq xs => exact absurd hs (by simp [Value.isScalar])
  | map es => exact absurd hs (by simp [Value.isScalar])

theorem parseValueL_plain_branch (l : List Char) (hstrip : pyStripL l = l)
    (hne : l ≠ []) (hword : lowerL l ∉ boolNullWords)
    (hq1 : ¬(l.head? = some '"' ∧ l.getLast? = some '"'))
    (hq2 : ¬(l.head? = some '\'' ∧ l.getLast? = some '\'')) :
    Scanner.parseValueL l =
      match pyInt? l with
      | some n => .int n
      | none => if pyFloatOk l then .float ⟨l⟩ else .str ⟨l⟩ := by
  simp only [Scanner.parseValueL, hstrip]
  rw [if_neg hne,
    if_neg (by
      intro hw
      apply hword
      rcases hw with hw | hw | hw <;> (rw [hw]; simp [boolNullWords])),
    if_neg (by
      intro hw
      apply hword
      rcases hw with hw | hw | hw <;> (rw [hw]; simp [boolNullWords])),
    if_neg (by
      intro hw
      apply hword
      rcases hw with hw | hw <;> (rw [hw]; simp [boolNullWords])),
    if_neg hq1, if_neg hq2]

theorem render_good_scalar (v : Value) (hg : Good v) (hs : v.isScalar) :
    (Dumper.dump 2 v 0).data ≠ [] ∧
    pyStripL (Dumper.dump 2 v 0).data = (Dumper.dump 2 v 0).data ∧
    (∀ c ∈ (Dumper.dump 2 v 0).data, c ≠ '\n') ∧
    (Dumper.dump 2 v 0).data.take 2 ≠ ['-', ' '] ∧
    (Dumper.dump 2 v 0).data.head? ≠ some '#' ∧
    splitColonSpace (Dumper.dump 2 v 0).data = none ∧
    (Dumper.dump 2 v 0).data.getLast? ≠ some ':' ∧
    Scanner.parseValueL (Dumper.dump 2 v 0).data = v := by
  cases v with
  | null =>
    rw [dump_null]
    exact ⟨by decide, by decide, by decide, by decide, by decide, by decide,
      by decide, rfl⟩
  | bool b =>
    cases b
    · have hd : Dumper.dump 2 (Value.bool false) 0 = "false" := by
        rw [dump_bool]; decide
      rw [hd]
      exact ⟨by decide, by decide, by decide, by decide, by decide, by decide,
        by decide, rfl⟩
    · have hd : Dumper.dump 2 (Value.bool true) 0 = "true" := by
        rw [dump_bool]; decide
      rw [hd]
      exact ⟨by decide, by decide, by decide, by decide, by decide, by decide,
        by decide, rfl⟩
  | int n =>
    rw [dump_int]
    have hchars := intToString_chars n
    have hgen : ∀ (p : Char → Prop) [DecidablePred p],
        (∀ d, d < 10 → p (digitChar d)) → p '-' →
        ∀ c ∈ (intToString n).data, p c := by
      intro p hp hdig hminus c hc
      rcases hchars c hc with ⟨d, hd, rfl⟩ | rfl
      · exact hdig d hd
      · exact hminus
    have hnws : ∀ c ∈ (intToString n).data, isPyWs c = false :=
      hgen _ (fun d hd => by interval_cases d <;> decide) (by decide)
    have hstrip := pyStripL_id_of_all _ hnws
    have hnecol : ∀ c ∈ (intToString n).data, c ≠ ':' :=
      hgen _ (fun d hd => by interval_cases d <;> decide) (by decide)
    obtain ⟨c0, hc0⟩ : ∃ c0, (intToString n).data.head? = some c0 := by
      cases hd : (intToString n).data with
      | nil => exact absurd hd (intToString_ne_nil n)
      | cons a b => exact ⟨a, rfl⟩
    have hc0mem := List.mem_of_mem_head? (a := c0) (by rw [hc0]; simp)
    have hword : lowerL (intToString n).data ∉ boolNullWords := by
      apply not_word_of_head _ c0 hc0
      rcases hchars c0 hc0mem with ⟨d, hd, rfl⟩ | rfl
      · interval_cases d <;> decide
      · decide
    refine ⟨intToString_ne_nil n, hstrip, ?_, ?_, ?_, ?_, ?_, ?_⟩
    · exact hgen _ (fun d hd => by interval_cases d <;> decide) (by decide)
    · apply take2_ne_dash_space
      exact hgen _ (fun d hd => by interval_cases d <;> decide) (by decide)
    · intro hc
      have hm := List.mem_of_mem_head? (a := '#') (by rw [hc]; simp)
      exact hgen (fun c => c ≠ '#')
        (fun d hd => by interval_cases d <;> decide) (by decide) '#' hm rfl
    · exact splitColonSpace_none_of_no_colon _ hnecol
    · intro hc
      exact hnecol ':' (List.mem_of_getLast?_eq_some hc) rfl
    · rw [parseValueL_plain_branch _ hstrip (intToString_ne_nil n) hword
        (by
          rintro ⟨hq, -⟩
          have hm := List.mem_of_mem_head? (a := '"') (by rw [hq]; simp)
          exact hgen (fun c => c ≠ '"')
            (fun d hd => by interval_cases d <;> decide) (by decide) '"' hm rfl)
        (by
          rintro ⟨hq, -⟩
          have hm := List.mem_of_mem_head? (a := '\'') (by rw [hq]; simp)
          exact hgen (fun c => c ≠ '\'')
            (fun d hd => by interval_cases d <;> decide) (by decide) '\'' hm rfl),
        pyInt?_intToString n]
  | float t =>
    obtain ⟨hne, hstrip, hchars, htake, hword⟩ :
        plainFrag t := by cases hg with | float t hp _ _ => exact hp
    have hint : pyInt? t.data = none := by cases hg with | float t _ h _ => exact h
    have hfl : pyFloatOk t.data = true := by cases hg with | float t _ _ h => exact h
    rw [dump_float]
    have hnecol : ∀ c ∈ t.data, c ≠ ':' := by
      intro c hc he
      exact (hchars c hc).1 (by rw [he]; decide)
    refine ⟨hne, hstrip, fun c hc => (hchars c hc).2, htake, ?_, ?_, ?_, ?_⟩
    · intro hc
      exact (hchars '#' (List.mem_of_mem_head? (by rw [hc]; simp))).1 (by decide)
    · exact splitColonSpace_none_of_no_colon _ hnecol
    · intro hc
      exact hnecol ':' (List.mem_of_getLast?_eq_some hc) rfl
    · rw [parseValueL_plain_branch _ hstrip hne hword
        (by
          rintro ⟨hq, -⟩
          exact (hchars '"' (List.mem_of_mem_head? (by rw [hq]; simp))).1
            (by decide))
        (by
          rintro ⟨hq, -⟩
          exact (hchars '\'' (List.mem_of_mem_head? (by rw [hq]; simp))).1
            (by decide)),
        hint, hfl]
      rfl
  | str s =>
    obtain ⟨hne, hstrip, hchars, htake, hword⟩ :
        plainFrag s := by cases hg with | str s hp _ _ => exact hp
    have hint : pyInt? s.data = none := by cases hg with | str s _ h _ => exact h
    have hfl : pyFloatOk s.data = false := by cases hg with | str s _ _ h => exact h
    rw [dump_str, if_neg (by
      rw [mustQuote_eq_false_of_plain s (fun c hc => (hchars c hc).1)]
      simp)]
    have hnecol : ∀ c ∈ s.data, c ≠ ':' := by
      intro c hc he
      exact (hchars c hc).1 (by rw [he]; decide)
    refine ⟨hne, hstrip, fun c hc => (hchars c hc).2, htake, ?_, ?_, ?_, ?_⟩
    · intro hc
      exact (hchars '#' (List.mem_of_mem_head? (by rw [hc]; simp))).1 (by decide)
    · exact splitColonSpace_none_of_no_colon _ hnecol
    · intro hc
      exact hnecol ':' (List.mem_of_getLast?_eq_some hc) rfl
    · rw [parseValueL_plain_branch _ hstrip hne hword
        (by
          rintro ⟨hq, -⟩
          exact (hchars '"' (List.mem_of_mem_head? (by rw [hq]; simp))).1
            (by decide))
        (by
          rintro ⟨hq, -⟩
          exact (hchars '\'' (List.mem_of_mem_head? (by rw [hq]; simp))).1
            (by decide)),
        hint, hfl]
      rfl
  | seq xs => exact absurd hs (by simp [Value.isScalar])
  | map es => exact absurd hs (by simp [Value.isScalar])

/-! Line classification of the dumper's output lines. -/

theorem getLast?_some_of_ne_nil (l : List Char) (h : l ≠ []) :
    ∃ x, l.getLast? = some x := by
  induction l with
  | nil => exact absurd rfl h
  | cons c t ih =>
    cases t with
    | nil => exact ⟨c, rfl⟩
    | cons b t2 =>
      obtain ⟨x, hx⟩ := ih (by simp)
      exact ⟨x, by rw [List.getLast?_cons_cons]; exact hx⟩

theorem getLast?_append_right (l1 l2 : List Char) (h : l2 ≠ []) :
    (l1 ++ l2).getLast? = l2.getLast? := by
  obtain ⟨x, hx⟩ := getLast?_some_of_ne_nil l2 h
  rw [List.getLast?_append, hx]
  rfl

theorem getLast?_cons_of_ne_nil (a : Char) (l : List Char) (h : l ≠ []) :
    (a :: l).getLast? = l.getLast? := by
  cases l with
  | nil => exact absurd rfl h
  | cons b t => rw [List.getLast?_cons_cons]

theorem head?_append_left (l1 l2 : List Char) (h : l1 ≠ []) :
    (l1 ++ l2).head? = l1.head? := by
  cases l1 with
  | nil => exact absurd rfl h
  | cons a t => simp

theorem lineTok_plain (r : List Char) (hne : r ≠ []) (hstrip : pyStripL r = r)
    (htake : r.take 2 ≠ ['-', ' ']) (hhash : r.head? ≠ some '#')
    (hsplit : splitColonSpace r = none) (hlast : r.getLast? ≠ some ':') :
    lineTok r = some (.value (Scanner.parseValueL r) 0) := by
  simp only [lineTok, hstrip]
  rw [if_neg hne, if_neg hhash, if_neg htake,
    if_neg (by simp [hsplit, hlast]),
    (dropWhile_eq_self_parts r hstrip).1]
  simp

theorem lineTok_item (m : Nat) (r : List Char) (hne : r ≠ [])
    (hstrip : pyStripL r = r) :
    lineTok (List.replicate m ' ' ++ '-' :: ' ' :: r) =
      some (.listItem ⟨r⟩ m) := by
  have hlastr := last_not_ws_of_strip_id r hstrip
  have hlast2 : ∀ c, ('-' :: ' ' :: r).getLast? = some c → isPyWs c = false := by
    intro c hc
    rw [List.getLast?_cons_cons, getLast?_cons_of_ne_nil ' ' r hne] at hc
    exact hlastr c hc
  have hcstrip : pyStripL (List.replicate m ' ' ++ '-' :: ' ' :: r) =
      '-' :: ' ' :: r :=
    pyStripL_indented m _ (by intro c hc; simp at hc; rw [← hc]; decide) hlast2
  simp only [lineTok, hcstrip]
  rw [if_neg (by simp), if_neg (by simp),
    indent_of_indented m _ (by intro c hc; simp at hc; rw [← hc]; decide),
    if_pos (by simp)]
  simp

theorem lineTok_keyValue (m : Nat) (k : String) (hk : plainKey k)
    (r : List Char) (hne : r ≠ []) (hstrip : pyStripL r = r)
    (hlastcolon : r.getLast? ≠ some ':') :
    lineTok (List.replicate m ' ' ++ (k.data ++ ':' :: ' ' :: r)) =
      some (.keyValue k (Scanner.parseValueL r) m) := by
  obtain ⟨hkne, hkstrip, hknl, hktake, hkhash, hksplit, hklast⟩ := hk
  have hkhead := head_not_ws_of_strip_id k.data hkstrip
  have hlastr := last_not_ws_of_strip_id r hstrip
  have hhead_eq : (k.data ++ ':' :: ' ' :: r).head? = k.data.head? :=
    head?_append_left _ _ hkne
  have hlast_eq : (k.data ++ ':' :: ' ' :: r).getLast? = r.getLast? := by
    rw [getLast?_append_right _ _ (by simp), List.getLast?_cons_cons,
      getLast?_cons_of_ne_nil ' ' r hne]
  have hcstrip : pyStripL (List.replicate m ' ' ++ (k.data ++ ':' :: ' ' :: r)) =
      k.data ++ ':' :: ' ' :: r :=
    pyStripL_indented m _
      (by
        intro c hc
        rw [hhead_eq] at hc
        exact hkhead c hc)
      (by
        intro c hc
        rw [hlast_eq] at hc
        exact hlastr c hc)
  have hsplit : splitColonSpace (k.data ++ ':' :: ' ' :: r) =
      some (k.data, r) := splitColonSpace_append k.data r hksplit
  have htake2 : (k.data ++ ':' :: ' ' :: r).take 2 ≠ ['-', ' '] := by
    cases hd : k.data with
    | nil => exact absurd hd hkne
    | cons c0 k1 =>
      cases k1 with
      | nil =>
        simp only [List.cons_append, List.nil_append, List.take]
        intro hcon
        simp at hcon
      | cons c1 k2 =>
        rw [hd] at hktake
        simp only [List.cons_append, List.take]
        intro hcon
        simp at hcon
        apply hktake
        simp [hcon.1, hcon.2]
  simp only [lineTok, hcstrip]
  rw [if_neg (by simp [hkne]), if_neg (by rw [hhead_eq]; exact hkhash),
    if_neg htake2,
    indent_of_indented m _ (by
      intro c hc
      rw [hhead_eq] at hc
      exact hkhead c hc),
    if_pos (by rw [hsplit]; simp),
    if_neg (by rw [hlast_eq]; exact hlastcolon), hsplit]

theorem lineTok_key (m : Nat) (k : String) (hk : plainKey k) :
    lineTok (List.replicate m ' ' ++ (k.data ++ [':'])) = some (.key k m) := by
  obtain ⟨hkne, hkstrip, hknl, hktake, hkhash, hksplit, hklast⟩ := hk
  have hkhead := head_not_ws_of_strip_id k.data hkstrip
  have hhead_eq : (k.data ++ [':']).head? = k.data.head? :=
    head?_append_left _ _ hkne
  have hlast_eq : (k.data ++ [':']).getLast? = some ':' := by
    rw [getLast?_append_right _ _ (by simp)]
    rfl
  have hcstrip : pyStripL (List.replicate m ' ' ++ (k.data ++ [':'])) =
      k.data ++ [':'] :=
    pyStripL_indented m _
      (by
        intro c hc
        rw [hhead_eq] at hc
        exact hkhead c hc)
      (by
        intro c hc
        rw [hlast_eq] at hc
        simp at hc
        rw [← hc]
        decide)
  have htake2 : (k.data ++ [':']).take 2 ≠ ['-', ' '] := by
    cases hd : k.data with
    | nil => exact absurd hd hkne
    | cons c0 k1 =>
      cases k1 with
      | nil =>
        simp only [List.cons_append, List.nil_append, List.take]
        intro hcon
        simp at hcon
      | cons c1 k2 =>
        rw [hd] at hktake
        simp only [List.cons_append, List.take]
        intro hcon
        simp at hcon
        apply hktake
        simp [hcon.1, hcon.2]
  simp only [lineTok, hcstrip]
  rw [if_neg (by simp [hkne]), if_neg (by rw [hhead_eq]; exact hkhash),
    if_neg htake2,
    indent_of_indented m _ (by
      intro c hc
      rw [hhead_eq] at hc
      exact hkhead c hc),
    if_pos (Or.inr hlast_eq), if_pos hlast_eq]
  simp


/-! Scanning the dumper's output of Good collections yields exactly the
predicted token sequences. -/

theorem indentSpaces_data (w L : Nat) :
    (indentSpaces w L).data = List.replicate (L * w) ' ' := rfl

theorem itemLine_scalar (x : Value) (hs : x.isScalar) (L : Nat) :
    Dumper.itemLine 2 x L = indentSpaces 2 L ++ "- " ++ Dumper.dump 2 x 0 := by
  rw [itemLine_eq]
  cases x <;> first
    | rfl
    | exact absurd hs (by simp [Value.isScalar])

theorem scanL_single_line (l : List Char) (hnl : ∀ c ∈ l, c ≠ '\n') :
    scanL l = (lineTok l).toList := by
  unfold scanL
  rw [splitNl_no_newline l hnl]
  cases h : lineTok l <;> simp [List.filterMap, h]

theorem scanL_itemLine (x : Value) (hg : Good x) (hs : x.isScalar) (L : Nat) :
    scanL (Dumper.itemLine 2 x L).data =
      [.listItem ⟨(Dumper.dump 2 x 0).data⟩ (L * 2)] := by
  obtain ⟨hne, hstrip, hnl, _, _, _, _, _⟩ := render_good_scalar x hg hs
  rw [itemLine_scalar x hs L]
  have hdata : (indentSpaces 2 L ++ "- " ++ Dumper.dump 2 x 0).data =
      List.replicate (L * 2) ' ' ++ '-' :: ' ' :: (Dumper.dump 2 x 0).data := by
    simp [String.data_append, indentSpaces_data]
  rw [hdata, scanL_single_line _ (by
    intro c hc
    rcases List.mem_append.mp hc with hc | hc
    · rw [List.eq_of_mem_replicate hc]; decide
    · rcases List.mem_cons.mp hc with hc | hc
      · rw [hc]; decide
      · rcases List.mem_cons.mp hc with hc | hc
        · rw [hc]; decide
        · exact hnl c hc),
    lineTok_item (L * 2) _ hne hstrip]
  rfl

theorem scanL_itemLines (L : Nat) :
    ∀ xs : List Value, xs ≠ [] → (∀ x ∈ xs, x.isScalar) → (∀ x ∈ xs, Good x) →
      scanL (joinNl (Dumper.itemLines 2 xs L)).data = itemToks L xs := by
  intro xs
  induction xs with
  | nil => intro h; exact absurd rfl h
  | cons x xr ih =>
    intro _ hsc hgd
    rw [itemLines_cons]
    cases xr with
    | nil =>
      rw [itemLines_nil]
      rw [show joinNl [Dumper.itemLine 2 x L] = Dumper.itemLine 2 x L from rfl]
      rw [scanL_itemLine x (hgd x (by simp)) (hsc x (by simp)) L]
      rfl
    | cons x2 xr2 =>
      rw [scanL_joinNl_cons _ _ (by rw [itemLines_cons]; simp)]
      rw [scanL_itemLine x (hgd x (by simp)) (hsc x (by simp)) L,
        ih (by simp) (fun a ha => hsc a (by simp [ha]))
          (fun a ha => hgd a (by simp [ha]))]
      rfl

theorem scanL_dump_seq (L : Nat) (xs : List Value) (hne : xs ≠ [])
    (hsc : ∀ x ∈ xs, x.isScalar) (hgd : ∀ x ∈ xs, Good x) :
    scanL (Dumper.dump 2 (.seq xs) L).data = itemToks L xs := by
  rw [dump_seq]
  cases xs with
  | nil => exact absurd rfl hne
  | cons x xr =>
    rw [dumpList_cons]
    exact scanL_itemLines L (x :: xr) (by simp) hsc hgd

theorem entryLine_scalar (k : String) (v : Value) (hs : v.isScalar) (L : Nat) :
    Dumper.entryLine 2 k v L =
      indentSpaces 2 L ++ k ++ ": " ++ Dumper.dump 2 v 0 := by
  rw [entryLine_eq]
  cases v <;> first
    | rfl
    | exact absurd hs (by simp [Value.isScalar])

theorem scanL_entryLine_scalar (k : String) (hk : plainKey k) (v : Value)
    (hg : Good v) (hs : v.isScalar) (L : Nat) :
    scanL (Dumper.entryLine 2 k v L).data = [.keyValue k v (L * 2)] := by
  obtain ⟨hne, hstrip, hnl, _, _, _, hlastc, hcoerce⟩ := render_good_scalar v hg hs
  rw [entryLine_scalar k v hs L]
  have hdata : (indentSpaces 2 L ++ k ++ ": " ++ Dumper.dump 2 v 0).data =
      List.replicate (L * 2) ' ' ++
        (k.data ++ ':' :: ' ' :: (Dumper.dump 2 v 0).data) := by
    simp [String.data_append, indentSpaces_data]
  rw [hdata, scanL_single_line _ (by
    intro c hc
    rcases List.mem_append.mp hc with hc | hc
    · rw [List.eq_of_mem_replicate hc]; decide
    · rcases List.mem_append.mp hc with hc | hc
      · exact hk.2.2.1 c hc
      · rcases List.mem_cons.mp hc with hc | hc
        · rw [hc]; decide
        · rcases List.mem_cons.mp hc with hc | hc
          · rw [hc]; decide
          · exact hnl c hc),
    lineTok_keyValue (L * 2) k hk _ hne hstrip hlastc, hcoerce]
  rfl

theorem scanL_key_block (L : Nat) (k : String) (hk : plainKey k)
    (child : String) :
    scanL (indentSpaces 2 L ++ k ++ ":\n" ++ child).data =
      .key k (L * 2) :: scanL child.data := by
  have hdata : (indentSpaces 2 L ++ k ++ ":\n" ++ child).data =
      (List.replicate (L * 2) ' ' ++ (k.data ++ [':'])) ++ '\n' :: child.data := by
    simp [String.data_append, indentSpaces_data]
  rw [hdata]
  unfold scanL
  rw [splitNl_append, List.filterMap_append,
    splitNl_no_newline _ (by
      intro c hc
      rcases List.mem_append.mp hc with hc | hc
      · rw [List.eq_of_mem_replicate hc]; decide
      · rcases List.mem_append.mp hc with hc | hc
        · exact hk.2.2.1 c hc
        · simp at hc
          rw [hc]; decide)]
  rw [show List.filterMap lineTok [List.replicate (L * 2) ' ' ++ (k.data ++ [':'])] =
      [Tok.key k (L * 2)] from by
    rw [List.filterMap_cons, lineTok_key (L * 2) k hk]
    rfl]
  rfl

theorem entryLines_ne_nil (w L : Nat) (e : String × Value)
    (er : List (String × Value)) : Dumper.entryLines w (e :: er) L ≠ [] := by
  obtain ⟨k, v⟩ := e
  rw [entryLines_cons]
  simp

theorem good_seq_ne_nil (xs : List Value) (h : Good (.seq xs)) : xs ≠ [] := by
  cases h with
  | seq xs hne _ _ => exact hne

theorem good_map_ne_nil (es : List (String × Value)) (h : Good (.map es)) :
    es ≠ [] := by
  cases h with
  | map es hne _ _ _ => exact hne

theorem scanL_entryLine (k : String) (hk : plainKey k) (v : Value)
    (hg : Good v) (L : Nat) :
    scanL (Dumper.entryLine 2 k v L).data = entryHeadToks L k v := by
  cases v with
  | seq xs =>
    cases xs with
    | nil => exact absurd rfl (good_seq_ne_nil [] hg)
    | cons y ys =>
      rw [entryLine_eq]
      exact scanL_key_block L k hk _
  | map es =>
    cases es with
    | nil => exact absurd rfl (good_map_ne_nil [] hg)
    | cons f fs =>
      rw [entryLine_eq]
      exact scanL_key_block L k hk _
  | null => exact scanL_entryLine_scalar k hk _ hg (by simp [Value.isScalar]) L
  | bool b => exact scanL_entryLine_scalar k hk _ hg (by simp [Value.isScalar]) L
  | int n => exact scanL_entryLine_scalar k hk _ hg (by simp [Value.isScalar]) L
  | float t => exact scanL_entryLine_scalar k hk _ hg (by simp [Value.isScalar]) L
  | str s2 => exact scanL_entryLine_scalar k hk _ hg (by simp [Value.isScalar]) L

theorem entryToks_cons (L : Nat) (k : String) (v : Value)
    (er : List (String × Value)) :
    entryToks L ((k, v) :: er) = entryHeadToks L k v ++ entryToks L er := rfl

theorem scanL_entryLines (L : Nat) :
    ∀ es : List (String × Value), es ≠ [] →
      (∀ e ∈ es, plainKey e.1) → (∀ e ∈ es, Good e.2) →
      scanL (joinNl (Dumper.entryLines 2 es L)).data = entryToks L es := by
  intro es
  induction es with
  | nil => intro h; exact absurd rfl h
  | cons e er ih =>
    intro _ hk hg
    obtain ⟨k, v⟩ := e
    rw [entryLines_cons, entryToks_cons]
    cases er with
    | nil =>
      rw [entryLines_nil]
      rw [show joinNl [Dumper.entryLine 2 k v L] = Dumper.entryLine 2 k v L
        from rfl]
      rw [scanL_entryLine k (hk (k, v) (by simp)) v (hg (k, v) (by simp)) L]
      show _ = _ ++ entryToks L []
      rw [show entryToks L [] = [] from rfl, List.append_nil]
    | cons e2 er2 =>
      rw [scanL_joinNl_cons _ _ (entryLines_ne_nil 2 L e2 er2)]
      rw [scanL_entryLine k (hk (k, v) (by simp)) v (hg (k, v) (by simp)) L,
        ih (by simp) (fun a ha => hk a (by simp [ha]))
          (fun a ha => hg a (by simp [ha]))]

theorem scanL_dump_map (L : Nat) (es : List (String × Value)) (hne : es ≠ [])
    (hk : ∀ e ∈ es, plainKey e.1) (hg : ∀ e ∈ es, Good e.2) :
    scanL (Dumper.dump 2 (.map es) L).data = entryToks L es := by
  rw [dump_map]
  cases es with
  | nil => exact absurd rfl hne
  | cons e er =>
    rw [dumpMapping_cons]
    exact scanL_entryLines L (e :: er) (by simp) hk hg


/-! Parsing the predicted token sequences rebuilds the original Value. -/

theorem insertAssoc_append (es : List (String × Value)) (k : String) (v : Value)
    (h : k ∉ es.map Prod.fst) : insertAssoc es k v = es ++ [(k, v)] := by
  induction es with
  | nil => rfl
  | cons e er ih =>
    obtain ⟨k', v'⟩ := e
    simp only [List.map_cons, List.mem_cons] at h
    push_neg at h
    rw [show insertAssoc ((k', v') :: er) k v =
        if k' = k then (k', v) :: er else (k', v') :: insertAssoc er k v
      from rfl]
    rw [if_neg (fun he => h.1 he.symm), ih h.2]
    rfl

theorem scanL_dump_scalar (v : Value) (hg : Good v) (hs : v.isScalar)
    (L : Nat) : scanL (Dumper.dump 2 v L).data = [.value v 0] := by
  rw [dump_scalar_level 2 v hs L 0]
  obtain ⟨hne, hstrip, hnl, htake, hhash, hsplit, hlast, hcoerce⟩ :=
    render_good_scalar v hg hs
  rw [scanL_single_line _ hnl,
    lineTok_plain _ hne hstrip htake hhash hsplit hlast, hcoerce]
  rfl

theorem parseList_items (L : Nat) :
    ∀ (xs : List Value) (acc : List Value) (rest : List Tok),
      (∀ x ∈ xs, x.isScalar) → (∀ x ∈ xs, Good x) →
      stopsBelow (L * 2) rest →
      parseListF (L * 2) (itemToks L xs ++ rest) acc = acc ++ xs ∧
      parseListR (L * 2) (itemToks L xs ++ rest) acc = rest := by
  intro xs
  induction xs with
  | nil =>
    intro acc rest _ _ hstop
    simp only [itemToks, List.nil_append]
    cases rest with
    | nil => rw [parseListF_nil, parseListR_nil]; simp
    | cons t ts =>
      have ht := hstop t rfl
      rw [parseListF_break _ t ts acc ht, parseListR_break _ t ts acc ht]
      simp
  | cons x xr ih =>
    intro acc rest hsc hgd hstop
    rw [show itemToks L (x :: xr) =
        .listItem ⟨(Dumper.dump 2 x 0).data⟩ (L * 2) :: itemToks L xr from rfl,
      List.cons_append,
      parseListF_item _ _ _ _ _ (by omega),
      parseListR_item _ _ _ _ _ (by omega)]
    have hc := (render_good_scalar x (hgd x (by simp)) (hsc x (by simp))).2.2.2.2.2.2.2
    rw [show (⟨(Dumper.dump 2 x 0).data⟩ : String).data = (Dumper.dump 2 x 0).data
      from rfl, hc]
    obtain ⟨hF, hR⟩ := ih (acc ++ [x]) rest
      (fun a ha => hsc a (by simp [ha])) (fun a ha => hgd a (by simp [ha])) hstop
    rw [hF, hR]
    simp

theorem entryToks_head_shape (L : Nat) (k : String) (v : Value)
    (er : List (String × Value)) :
    ∃ t ts, entryToks L ((k, v) :: er) = t :: ts ∧ t.indent = L * 2 := by
  rw [entryToks_cons]
  cases v with
  | seq xs =>
    cases xs with
    | nil => exact ⟨.keyValue k (.seq []) (L * 2), entryToks L er, rfl, rfl⟩
    | cons y ys =>
      exact ⟨.key k (L * 2),
        scanL (Dumper.dump 2 (.seq (y :: ys)) (L + 1)).data ++ entryToks L er,
        rfl, rfl⟩
  | map es2 =>
    cases es2 with
    | nil => exact ⟨.keyValue k (.map []) (L * 2), entryToks L er, rfl, rfl⟩
    | cons f fs =>
      exact ⟨.key k (L * 2),
        scanL (Dumper.dump 2 (.map (f :: fs)) (L + 1)).data ++ entryToks L er,
        rfl, rfl⟩
  | null => exact ⟨.keyValue k .null (L * 2), entryToks L er, rfl, rfl⟩
  | bool b => exact ⟨.keyValue k (.bool b) (L * 2), entryToks L er, rfl, rfl⟩
  | int n => exact ⟨.keyValue k (.int n) (L * 2), entryToks L er, rfl, rfl⟩
  | float t => exact ⟨.keyValue k (.float t) (L * 2), entryToks L er, rfl, rfl⟩
  | str s2 => exact ⟨.keyValue k (.str s2) (L * 2), entryToks L er, rfl, rfl⟩

theorem stopsBelow_entryToks (L : Nat) (er : List (String × Value))
    (rest : List Tok) (hstop : stopsBelow (L * 2) rest) :
    stopsBelow ((L + 1) * 2) (entryToks L er ++ rest) := by
  intro t ht
  cases er with
  | nil =>
    simp only [entryToks, List.nil_append] at ht
    have := hstop t ht
    omega
  | cons e er2 =>
    obtain ⟨k, v⟩ := e
    obtain ⟨t0, ts0, hsh, hind⟩ := entryToks_head_shape L k v er2
    rw [hsh] at ht
    simp at ht
    subst ht
    omega

theorem parseMapping_entries (L : Nat) :
    ∀ (es : List (String × Value)) (acc : List (String × Value))
      (rest : List Tok),
      (∀ e ∈ es, plainKey e.1) → (∀ e ∈ es, Good e.2) →
      (∀ e ∈ es, ∀ rest2 : List Tok, stopsBelow ((L + 1) * 2) rest2 →
        parseValueF ((L + 1) * 2)
          (scanL (Dumper.dump 2 e.2 (L + 1)).data ++ rest2) = e.2 ∧
        parseValueR ((L + 1) * 2)
          (scanL (Dumper.dump 2 e.2 (L + 1)).data ++ rest2) = rest2) →
      (es.map Prod.fst).Nodup →
      (∀ e ∈ es, e.1 ∉ acc.map Prod.fst) →
      stopsBelow (L * 2) rest →
      parseMappingF (L * 2) (entryToks L es ++ rest) acc = acc ++ es ∧
      parseMappingR (L * 2) (entryToks L es ++ rest) acc = rest := by
  intro es
  induction es with
  | nil =>
    intro acc rest _ _ _ _ _ hstop
    simp only [entryToks, List.nil_append]
    cases rest with
    | nil => rw [parseMappingF_nil, parseMappingR_nil]; simp
    | cons t ts =>
      have ht := hstop t rfl
      rw [parseMappingF_break _ t ts acc ht, parseMappingR_break _ t ts acc ht]
      simp
  | cons e er ih =>
    intro acc rest hk hg hchild hnodup hfresh hstop
    obtain ⟨k, v⟩ := e
    have hkfresh : k ∉ acc.map Prod.fst := hfresh (k, v) (by simp)
    have hknotin : k ∉ er.map Prod.fst := by
      simp only [List.map_cons, List.nodup_cons] at hnodup
      exact hnodup.1
    have hfresh' : ∀ e ∈ er, e.1 ∉ ((acc ++ [(k, v)]).map Prod.fst) := by
      intro e2 he2
      rw [List.map_append, List.mem_append]
      rintro (h1 | h1)
      · exact hfresh e2 (by simp [he2]) h1
      · simp at h1
        exact hknotin (h1 ▸ List.mem_map_of_mem Prod.fst he2)
    have hih := ih (acc ++ [(k, v)]) rest
      (fun a ha => hk a (by simp [ha])) (fun a ha => hg a (by simp [ha]))
      (fun a ha => hchild a (by simp [ha]))
      (by simp only [List.map_cons, List.nodup_cons] at hnodup; exact hnodup.2)
      hfresh' hstop
    rw [entryToks_cons, List.append_assoc]
    have hins : insertAssoc acc k v = acc ++ [(k, v)] :=
      insertAssoc_append acc k v hkfresh
    have happ : (acc ++ [(k, v)]) ++ er = acc ++ ((k, v) :: er) := by simp
    cases v with
    | seq xs =>
      cases xs with
      | nil =>
        exact absurd rfl (good_seq_ne_nil [] (hg (k, .seq []) (by simp)))
      | cons y ys =>
        have hchildkv := hchild (k, .seq (y :: ys)) (by simp)
        rw [show entryHeadToks L k (.seq (y :: ys)) =
            .key k (L * 2) ::
              scanL (Dumper.dump 2 (.seq (y :: ys)) (L + 1)).data from rfl]
        have hgchild : Good (.seq (y :: ys)) := hg (k, .seq (y :: ys)) (by simp)
        have hscan : scanL (Dumper.dump 2 (.seq (y :: ys)) (L + 1)).data =
            itemToks (L + 1) (y :: ys) := by
          cases hgchild with
          | seq _ hne2 hsc2 hgd2 => exact scanL_dump_seq (L + 1) _ (by simp) hsc2 hgd2
        have hstop2 : stopsBelow ((L + 1) * 2) (entryToks L er ++ rest) :=
          stopsBelow_entryToks L er rest hstop
        obtain ⟨hcF, hcR⟩ := hchildkv (entryToks L er ++ rest) hstop2
        rw [hscan] at hcF hcR ⊢
        rw [show itemToks (L + 1) (y :: ys) =
            .listItem ⟨(Dumper.dump 2 y 0).data⟩ ((L + 1) * 2) ::
              itemToks (L + 1) ys from rfl] at hcF hcR ⊢
        rw [List.cons_append, List.cons_append]
        rw [List.cons_append] at hcF hcR
        constructor
        · rw [parseMappingF_key_deep (L * 2) k (L * 2)
            (.listItem ⟨(Dumper.dump 2 y 0).data⟩ ((L + 1) * 2))
            (itemToks (L + 1) ys ++ (entryToks L er ++ rest)) acc
            (by omega) (by simp only [Tok.indent]; omega)]
          simp only [Tok.indent]
          rw [hcF, hcR, hins, hih.1, happ]
        · rw [parseMappingR_key_deep (L * 2) k (L * 2)
            (.listItem ⟨(Dumper.dump 2 y 0).data⟩ ((L + 1) * 2))
            (itemToks (L + 1) ys ++ (entryToks L er ++ rest)) acc
            (by omega) (by simp only [Tok.indent]; omega)]
          simp only [Tok.indent]
          rw [hcF, hcR, hins, hih.2]
    | map es2 =>
      cases es2 with
      | nil =>
        exact absurd rfl (good_map_ne_nil [] (hg (k, .map []) (by simp)))
      | cons f fs =>
        have hchildkv := hchild (k, .map (f :: fs)) (by simp)
        rw [show entryHeadToks L k (.map (f :: fs)) =
            .key k (L * 2) ::
              scanL (Dumper.dump 2 (.map (f :: fs)) (L + 1)).data from rfl]
        have hgchild : Good (.map (f :: fs)) := hg (k, .map (f :: fs)) (by simp)
        have hscan : scanL (Dumper.dump 2 (.map (f :: fs)) (L + 1)).data =
            entryToks (L + 1) (f :: fs) := by
          cases hgchild with
          | map _ hne2 hnd2 hk2 hg2 => exact scanL_dump_map (L + 1) _ (by simp) hk2 hg2
        have hstop2 : stopsBelow ((L + 1) * 2) (entryToks L er ++ rest) :=
          stopsBelow_entryToks L er rest hstop
        obtain ⟨hcF, hcR⟩ := hchildkv (entryToks L er ++ rest) hstop2
        rw [hscan] at hcF hcR ⊢
        obtain ⟨f1, f2⟩ := f
        obtain ⟨t0, ts0, hsh, hind⟩ := entryToks_head_shape (L + 1) f1 f2 fs
        rw [hsh] at hcF hcR ⊢
        rw [List.cons_append, List.cons_append]
        rw [List.cons_append] at hcF hcR
        constructor
        · rw [parseMappingF_key_deep (L * 2) k (L * 2) t0
            (ts0 ++ (entryToks L er ++ rest)) acc (by omega) (by omega)]
          rw [hind, hcF, hcR, hins, hih.1, happ]
        · rw [parseMappingR_key_deep (L * 2) k (L * 2) t0
            (ts0 ++ (entryToks L er ++ rest)) acc (by omega) (by omega)]
          rw [hind, hcF, hcR, hins, hih.2]
    | null =>
      rw [show entryHeadToks L k .null = [.keyValue k .null (L * 2)] from rfl,
        List.cons_append, List.nil_append,
        parseMappingF_keyValue _ _ _ _ _ _ (by omega),
        parseMappingR_keyValue _ _ _ _ _ _ (by omega), hins]
      exact ⟨by rw [hih.1, happ], hih.2⟩
    | bool b =>
      rw [show entryHeadToks L k (.bool b) = [.keyValue k (.bool b) (L * 2)]
        from rfl,
        List.cons_append, List.nil_append,
        parseMappingF_keyValue _ _ _ _ _ _ (by omega),
        parseMappingR_keyValue _ _ _ _ _ _ (by omega), hins]
      exact ⟨by rw [hih.1, happ], hih.2⟩
    | int n =>
      rw [show entryHeadToks L k (.int n) = [.keyValue k (.int n) (L * 2)]
        from rfl,
        List.cons_append, List.nil_append,
        parseMappingF_keyValue _ _ _ _ _ _ (by omega),
        parseMappingR_keyValue _ _ _ _ _ _ (by omega), hins]
      exact ⟨by rw [hih.1, happ], hih.2⟩
    | float t =>
      rw [show entryHeadToks L k (.float t) = [.keyValue k (.float t) (L * 2)]
        from rfl,
        List.cons_append, List.nil_append,
        parseMappingF_keyValue _ _ _ _ _ _ (by omega),
        parseMappingR_keyValue _ _ _ _ _ _ (by omega), hins]
      exact ⟨by rw [hih.1, happ], hih.2⟩
    | str s2 =>
      rw [show entryHeadToks L k (.str s2) = [.keyValue k (.str s2) (L * 2)]
        from rfl,
        List.cons_append, List.nil_append,
        parseMappingF_keyValue _ _ _ _ _ _ (by omega),
        parseMappingR_keyValue _ _ _ _ _ _ (by omega), hins]
      exact ⟨by rw [hih.1, happ], hih.2⟩

theorem good_parse (v : Value) (hg : Good v) :
    ∀ L (rest : List Tok), stopsBelow (L * 2) rest →
      parseValueF (L * 2) (scanL (Dumper.dump 2 v L).data ++ rest) = v ∧
      parseValueR (L * 2) (scanL (Dumper.dump 2 v L).data ++ rest) = rest := by
  induction hg with
  | null =>
    intro L rest _
    rw [scanL_dump_scalar .null Good.null (by simp [Value.isScalar]) L,
      List.cons_append, List.nil_append, parseValueF_value, parseValueR_value]
    exact ⟨rfl, rfl⟩
  | bool b =>
    intro L rest _
    rw [scanL_dump_scalar (.bool b) (Good.bool b) (by simp [Value.isScalar]) L,
      List.cons_append, List.nil_append, parseValueF_value, parseValueR_value]
    exact ⟨rfl, rfl⟩
  | int n =>
    intro L rest _
    rw [scanL_dump_scalar (.int n) (Good.int n) (by simp [Value.isScalar]) L,
      List.cons_append, List.nil_append, parseValueF_value, parseValueR_value]
    exact ⟨rfl, rfl⟩
  | float t hp hi hf =>
    intro L rest _
    rw [scanL_dump_scalar (.float t) (Good.float t hp hi hf)
      (by simp [Value.isScalar]) L,
      List.cons_append, List.nil_append, parseValueF_value, parseValueR_value]
    exact ⟨rfl, rfl⟩
  | str s2 hp hi hf =>
    intro L rest _
    rw [scanL_dump_scalar (.str s2) (Good.str s2 hp hi hf)
      (by simp [Value.isScalar]) L,
      List.cons_append, List.nil_append, parseValueF_value, parseValueR_value]
    exact ⟨rfl, rfl⟩
  | seq xs hne hsc hgd _ =>
    intro L rest hstop
    rw [scanL_dump_seq L xs hne hsc hgd]
    cases xs with
    | nil => exact absurd rfl hne
    | cons x xr =>
      rw [show itemToks L (x :: xr) =
          .listItem ⟨(Dumper.dump 2 x 0).data⟩ (L * 2) :: itemToks L xr from rfl,
        List.cons_append, parseValueF_listItem, parseValueR_listItem,
        ← List.cons_append,
        ← show itemToks L (x :: xr) =
          .listItem ⟨(Dumper.dump 2 x 0).data⟩ (L * 2) :: itemToks L xr from rfl]
      obtain ⟨hF, hR⟩ := parseList_items L (x :: xr) [] rest hsc hgd hstop
      rw [hF, hR]
      exact ⟨by simp, rfl⟩
  | map es hne hnodup hk hg ih =>
    intro L rest hstop
    rw [scanL_dump_map L es hne hk hg]
    have hmain := parseMapping_entries L es [] rest hk hg
      (fun e he rest2 hs2 => ih e he (L + 1) rest2 (by
        intro t ht
        have := hs2 t ht
        omega))
      hnodup (by simp) hstop
    cases es with
    | nil => exact absurd rfl hne
    | cons e er =>
      obtain ⟨k, v⟩ := e
      obtain ⟨t0, ts0, hsh, hind⟩ := entryToks_head_shape L k v er
      rw [hsh] at hmain ⊢
      cases t0 with
      | key k0 i0 =>
        rw [List.cons_append, parseValueF_key, parseValueR_key,
          ← List.cons_append]
        exact ⟨by rw [hmain.1]; simp, hmain.2⟩
      | keyValue k0 v0 i0 =>
        rw [List.cons_append, parseValueF_keyValue, parseValueR_keyValue,
          ← List.cons_append]
        exact ⟨by rw [hmain.1]; simp, hmain.2⟩
      | listItem raw i0 =>
        exfalso
        have : entryHeadToks L k v ++ entryToks L er = .listItem raw i0 :: ts0 := hsh
        cases v <;> simp [entryHeadToks] at this <;>
          first
          | (rcases this with ⟨h1, -⟩; cases h1)
          | skip
        all_goals (rename_i l; cases l <;> simp [entryHeadToks] at this)
        all_goals (rcases this with ⟨h1, -⟩; cases h1)
      | value v0 i0 =>
        exfalso
        have : entryHeadToks L k v ++ entryToks L er = .value v0 i0 :: ts0 := hsh
        cases v <;> simp [entryHeadToks] at this <;>
          first
          | (rcases this with ⟨h1, -⟩; cases h1)
          | skip
        all_goals (rename_i l; cases l <;> simp [entryHeadToks] at this)
        all_goals (rcases this with ⟨h1, -⟩; cases h1)

theorem good_load_dump (v : Value) (hg : Good v) : load (dump v) = v := by
  have hmain := good_parse v hg 0 [] (by intro t ht; cases ht)
  rw [List.append_nil] at hmain
  show Parser.parse (scanL (Dumper.dump 2 v 0).data) = v
  have hne : ∃ t ts, scanL (Dumper.dump 2 v 0).data = t :: ts := by
    cases v with
    | seq xs =>
      cases hg with
      | seq _ hne2 hsc2 hgd2 =>
        cases xs with
        | nil => exact absurd rfl hne2
        | cons x xr =>
          rw [scanL_dump_seq 0 _ (by simp) hsc2 hgd2]
          exact ⟨_, _, rfl⟩
    | map es =>
      cases hg with
      | map _ hne2 hnd2 hk2 hg2 =>
        cases es with
        | nil => exact absurd rfl hne2
        | cons e er =>
          rw [scanL_dump_map 0 _ (by simp) hk2 hg2]
          obtain ⟨k, v0⟩ := e
          obtain ⟨t0, ts0, hsh, _⟩ := entryToks_head_shape 0 k v0 er
          exact ⟨t0, ts0, hsh⟩
    | null => exact ⟨_, _, scanL_dump_scalar _ hg (by simp [Value.isScalar]) 0⟩
    | bool b => exact ⟨_, _, scanL_dump_scalar _ hg (by simp [Value.isScalar]) 0⟩
    | int n => exact ⟨_, _, scanL_dump_scalar _ hg (by simp [Value.isScalar]) 0⟩
    | float t => exact ⟨_, _, scanL_dump_scalar _ hg (by simp [Value.isScalar]) 0⟩
    | str s2 => exact ⟨_, _, scanL_dump_scalar _ hg (by simp [Value.isScalar]) 0⟩
  obtain ⟨t, ts, hts⟩ := hne
  rw [Parser.parse_eq, hts]
  show parseValueF 0 (t :: ts) = v
  rw [← hts]
  simpa using hmain.1


/-! Helper lemmas shared by the claim theorems. -/

/-- an input that scans to a single VALUE token loads to that token's value. -/
theorem load_single_value (s : String) (v : Value)
    (h : Scanner.scan s = [.value v 0]) : load s = v := by
  rw [load, h, Parser.parse_eq]
  simp [parseValueF_value]

/-- blank and comment lines produce no token. -/
theorem lineTok_none_blank_comment (l : List Char)
    (h : pyStripL l = [] ∨ (pyStripL l).head? = some '#') :
    lineTok l = none := by
  rcases h with h | h
  · simp [lineTok, h]
  · by_cases hnil : pyStripL l = []
    · simp [lineTok, hnil]
    · simp [lineTok, hnil, h]

/-- the dumper quotes a string exactly when it contains a must-quote character. -/
theorem mustQuote_iff (s : String) :
    mustQuote s = true ↔ ∃ c ∈ s.data, c ∈ mustQuoteChars := by
  simp only [mustQuote, List.any_eq_true]
  constructor
  · rintro ⟨c, hc, hcon⟩
    exact ⟨c, by simpa using hcon, hc⟩
  · rintro ⟨c, hc, hcm⟩
    exact ⟨c, hcm, by simpa using hc⟩

/-- inserting an existing key overwrites its value in place: the key keeps its
position and the rest of the association list is untouched. -/
theorem insertAssoc_overwrite (es1 es2 : List (String × Value)) (k : String)
    (v v' : Value) (h : k ∉ es1.map Prod.fst) :
    insertAssoc (es1 ++ (k, v) :: es2) k v' = es1 ++ (k, v') :: es2 := by
  induction es1 with
  | nil =>
    show insertAssoc ((k, v) :: es2) k v' = (k, v') :: es2
    rw [show insertAssoc ((k, v) :: es2) k v' =
        if k = k then (k, v') :: es2 else (k, v) :: insertAssoc es2 k v' from rfl,
      if_pos rfl]
  | cons e er ih =>
    obtain ⟨k1, v1⟩ := e
    simp only [List.map_cons, List.mem_cons] at h
    push_neg at h
    rw [List.cons_append,
      show insertAssoc ((k1, v1) :: (er ++ (k, v) :: es2)) k v' =
        if k1 = k then (k1, v') :: (er ++ (k, v) :: es2)
        else (k1, v1) :: insertAssoc (er ++ (k, v) :: es2) k v' from rfl,
      if_neg (fun he => h.1 he.symm), ih h.2]
    rfl

/-! The claims. -/

/-- Claim C1, amended: the clean round-trip `load (dump v) = v` holds for
every Good value — parser-producible shapes (non-empty collections, sequences
of scalars, distinct keys) whose scalar texts and keys survive one
scan/coerce cycle.  The spec's original class "every Value producible by
load, except strings containing a double quote" is too large: see the
counterexample. -/
theorem claim1_roundtrip_good (v : Value) (hg : Good v) : load (dump v) = v :=
  good_load_dump v hg

/-- witness for C1: a concrete Good mapping round-trips. -/
theorem claim1_roundtrip_good_witness :
    Good (.map [("a", .int 1)]) ∧
    load (dump (.map [("a", .int 1)])) = .map [("a", .int 1)] := by
  have hg : Good (.map [("a", Value.int 1)]) :=
    Good.map _ (by simp) (by simp)
      (fun e he => by
        simp only [List.mem_singleton] at he
        subst he
        exact ⟨by decide, by decide, by decide, by decide, by decide,
          by decide, by decide⟩)
      (fun e he => by
        simp only [List.mem_singleton] at he
        subst he
        exact Good.int 1)
  exact ⟨hg, claim1_roundtrip_good _ hg⟩

/-- counterexample to C1 as stated: `.str "0"` is producible by load (from
the quoted input `'0'`) and contains no double quote, yet it dumps to the
bare text `0`, which re-loads as the integer 0. -/
theorem claim1_counterexample :
    load "'0'" = .str "0" ∧
    (∀ c ∈ ("0" : String).data, c ≠ '"') ∧
    dump (.str "0") = "0" ∧
    load (dump (.str "0")) = .int 0 ∧
    Value.int 0 ≠ .str "0" := by
  have hd : dump (.str "0") = "0" := by
    rw [show dump (.str "0") = Dumper.dump 2 (.str "0") 0 from rfl, dump_str]
    rfl
  refine ⟨load_single_value _ _ rfl, by decide, hd, ?_, by simp⟩
  rw [hd]
  exact load_single_value _ _ rfl

/-- Claim C2, amended: `dump (load (dump v)) = dump v` holds for every Good
value.  The spec's class "strings contain no must-quote character" is too
large: it admits the empty collections, whose renderings `[]` and `{}`
re-load as strings (see the counterexample). -/
theorem claim2_idem_good (v : Value) (hg : Good v) :
    dump (load (dump v)) = dump v := by
  rw [good_load_dump v hg]

/-- witness for C2: dump-load-dump is idempotent on a concrete Good sequence. -/
theorem claim2_idem_good_witness :
    Good (.seq [.int 1]) ∧
    dump (load (dump (.seq [.int 1]))) = dump (.seq [.int 1]) := by
  have hg : Good (.seq [Value.int 1]) :=
    Good.seq _ (by simp)
      (fun x hx => by
        simp only [List.mem_singleton] at hx
        subst hx
        trivial)
      (fun x hx => by
        simp only [List.mem_singleton] at hx
        subst hx
        exact Good.int 1)
  exact ⟨hg, claim2_idem_good _ hg⟩

/-- counterexample to C2 as stated: the empty sequence has no string
component at all (so vacuously none with a must-quote character), yet its
dump `[]` re-loads as the string `[]`, which dumps quoted. -/
theorem claim2_counterexample :
    dump (.seq []) = "[]" ∧
    load "[]" = .str "[]" ∧
    dump (.str "[]") = "\"[]\"" ∧
    dump (load (dump (.seq []))) ≠ dump (.seq []) := by
  have h1 : dump (.seq []) = "[]" := by
    rw [show dump (.seq []) = Dumper.dump 2 (.seq []) 0 from rfl, dump_seq,
      dumpList_nil]
  have h2 : load "[]" = .str "[]" := load_single_value _ _ rfl
  have h3 : dump (.str "[]") = "\"[]\"" := by
    rw [show dump (.str "[]") = Dumper.dump 2 (.str "[]") 0 from rfl, dump_str]
    rfl
  refine ⟨h1, h2, h3, ?_⟩
  rw [h1, h2, h3]
  decide

/-- Claim C3, confirmed: load is total by construction (every function of the
embedding is), and an input whose every line is blank or a comment — in
particular the empty and all-whitespace inputs — loads to Null, because no
line yields a token and `Parser.parse` maps the empty token list to Null. -/
theorem claim3_blank_comment_null (s : String)
    (h : ∀ l ∈ splitNl s.data,
      pyStripL l = [] ∨ (pyStripL l).head? = some '#') :
    load s = .null := by
  have hscan : Scanner.scan s = [] := by
    show (splitNl s.data).filterMap lineTok = []
    rw [List.filterMap_eq_nil]
    intro l hl
    exact lineTok_none_blank_comment l (h l hl)
  rw [load, hscan]
  rfl

/-- witness for C3: a whitespace line plus a comment line load to Null. -/
theorem claim3_blank_comment_null_witness :
    (∀ l ∈ splitNl (" \n# just a comment" : String).data,
      pyStripL l = [] ∨ (pyStripL l).head? = some '#') ∧
    load " \n# just a comment" = .null :=
  ⟨by decide, claim3_blank_comment_null " \n# just a comment" (by decide)⟩

/-- Claim C4, confirmed: the spec's scalar-coercion examples, rule order
included — case-insensitive boolean words, null spellings, an integer, a
float (carried as its source text in this embedding) and a plain string. -/
theorem claim4_scalar_coercion :
    load "true" = .bool true ∧ load "Yes" = .bool true ∧
    load "ON" = .bool true ∧ load "no" = .bool false ∧
    load "off" = .bool false ∧ load "~" = .null ∧ load "null" = .null ∧
    load "42" = .int 42 ∧ load "3.14" = .float "3.14" ∧
    load "hello" = .str "hello" :=
  ⟨load_single_value _ _ rfl, load_single_value _ _ rfl,
   load_single_value _ _ rfl, load_single_value _ _ rfl,
   load_single_value _ _ rfl, load_single_value _ _ rfl,
   load_single_value _ _ rfl, load_single_value _ _ rfl,
   load_single_value _ _ rfl, load_single_value _ _ rfl⟩

/-- Claim C5, amended: in the KEY branch of a mapping parse at `b0`, when the
next token sits strictly deeper than the KEY token, the child parse runs at
the next token's indent, and every token it consumes has indent at least that
— hence strictly greater than `b0`.  The original claim's second half (the
first unconsumed token drops to `b0` or below) is refuted separately: the
child can stop at any indent below its own, higher base. -/
theorem claim5_child_consumption (b0 : Nat) (k : String) (i : Nat) (t2 : Tok)
    (rest : List Tok) (acc : List (String × Value)) (hge : ¬ i < b0)
    (hdeep : i < t2.indent) :
    parseMappingF b0 (.key k i :: t2 :: rest) acc =
      parseMappingF b0 (parseValueR t2.indent (t2 :: rest))
        (insertAssoc acc k (parseValueF t2.indent (t2 :: rest))) ∧
    ∃ pre, t2 :: rest = pre ++ parseValueR t2.indent (t2 :: rest) ∧
      ∀ u ∈ pre, b0 < u.indent := by
  constructor
  · exact parseMappingF_key_deep b0 k i t2 rest acc hge hdeep
  · obtain ⟨⟨hV, -, -⟩, -⟩ :=
      parser_consumes (t2 :: rest).length (t2 :: rest) (Nat.le_refl _)
    obtain ⟨pre, heq, hpre⟩ := hV t2 rfl t2.indent (Nat.le_refl _)
    exact ⟨pre, heq, fun u hu => by have := hpre u hu; omega⟩

/-- witness for C5: the consumption bound at a concrete KEY block. -/
theorem claim5_child_consumption_witness :
    (¬ (0 : Nat) < 0) ∧
    (0 < (Tok.keyValue "b" (Value.int 1) 4).indent) ∧
    (parseMappingF 0
        (.key "a" 0 :: .keyValue "b" (.int 1) 4 :: [.keyValue "c" (.int 2) 2])
        [] =
      parseMappingF 0
        (parseValueR (Tok.keyValue "b" (Value.int 1) 4).indent
          (.keyValue "b" (.int 1) 4 :: [.keyValue "c" (.int 2) 2]))
        (insertAssoc [] "a"
          (parseValueF (Tok.keyValue "b" (Value.int 1) 4).indent
            (.keyValue "b" (.int 1) 4 :: [.keyValue "c" (.int 2) 2]))) ∧
      ∃ pre, .keyValue "b" (.int 1) 4 :: [.keyValue "c" (.int 2) 2] =
          pre ++ parseValueR (Tok.keyValue "b" (Value.int 1) 4).indent
            (.keyValue "b" (.int 1) 4 :: [.keyValue "c" (.int 2) 2]) ∧
        ∀ u ∈ pre, 0 < u.indent) :=
  ⟨by decide, by decide,
   claim5_child_consumption 0 "a" 0 (.keyValue "b" (.int 1) 4)
     [.keyValue "c" (.int 2) 2] [] (by decide) (by decide)⟩

/-- counterexample to C5 as stated: with base indent 0, KEY `a` at indent 0
and children at indents 4 then 2, the child parse at base 4 stops at the
indent-2 token — whose indent is not at most the enclosing base 0, refuting
"consumes tokens up to the first token whose indent is ≤ base_indent". -/
theorem claim5_counterexample :
    parseValueR 4 [.keyValue "b" (.int 1) 4, .keyValue "c" (.int 2) 2] =
      [.keyValue "c" (.int 2) 2] ∧
    ¬ ((Tok.keyValue "c" (.int 2) 2).indent ≤ 0) ∧
    parseMappingF 0
      [.key "a" 0, .keyValue "b" (.int 1) 4, .keyValue "c" (.int 2) 2] [] =
      [("a", .map [("b", .int 1)]), ("c", .int 2)] := by
  refine ⟨?_, by decide, ?_⟩
  · simp [parseValueR_keyValue, parseMappingR_keyValue, parseMappingR_break,
      Tok.indent]
  · rw [parseMappingF_key_deep 0 "a" 0 (.keyValue "b" (.int 1) 4)
      [.keyValue "c" (.int 2) 2] [] (by decide) (by decide)]
    simp [parseValueF_keyValue, parseValueR_keyValue, parseMappingF_keyValue,
      parseMappingR_keyValue, parseMappingF_break, parseMappingR_break,
      parseMappingF_nil, Tok.indent, insertAssoc]

/-- Claim C6, amended: for a stripped fragment that matches none of rules
1–6, coercion returns an Integer exactly when the fragment has Python's
`int` literal shape — an optional sign, then digits possibly grouped by
single underscores strictly between digits.  The spec's "digits only" is
refuted separately by the underscored literal. -/
theorem claim6_amended_grammar (l : List Char) (hne : l ≠ [])
    (hstrip : pyStripL l = l) (hw : lowerL l ∉ boolNullWords)
    (hdq : ¬(l.head? = some '"' ∧ l.getLast? = some '"'))
    (hsq : ¬(l.head? = some '\'' ∧ l.getLast? = some '\'')) :
    (∃ n, Scanner.parseValueL l = .int n) ↔ pyIntShape l := by
  have hmem : ∀ w ∈ boolNullWords, lowerL l ≠ w := fun w hw2 heq => hw (heq ▸ hw2)
  have hw1 : ¬(lowerL l = "true".data ∨ lowerL l = "yes".data ∨
      lowerL l = "on".data) := by
    rintro (h | h | h) <;> exact hmem _ (by simp [boolNullWords]) h
  have hw2 : ¬(lowerL l = "false".data ∨ lowerL l = "no".data ∨
      lowerL l = "off".data) := by
    rintro (h | h | h) <;> exact hmem _ (by simp [boolNullWords]) h
  have hw3 : ¬(lowerL l = "null".data ∨ lowerL l = "~".data) := by
    rintro (h | h) <;> exact hmem _ (by simp [boolNullWords]) h
  rw [← pyInt?_isSome_iff]
  simp only [Scanner.parseValueL, hstrip]
  rw [if_neg hne, if_neg hw1, if_neg hw2, if_neg hw3, if_neg hdq, if_neg hsq]
  cases hp : pyInt? l with
  | some n => simp
  | none =>
    simp only [Option.isSome_none, Bool.false_eq_true, iff_false, not_exists]
    intro n hn
    split at hn <;> exact Value.noConfusion hn

/-- witness for C6: the literal `42` is classified integer by the grammar. -/
theorem claim6_amended_grammar_witness :
    (("42" : String).data ≠ [] ∧ pyStripL ("42" : String).data = ("42" : String).data ∧
      lowerL ("42" : String).data ∉ boolNullWords ∧
      ¬(("42" : String).data.head? = some '"' ∧
        ("42" : String).data.getLast? = some '"') ∧
      ¬(("42" : String).data.head? = some '\'' ∧
        ("42" : String).data.getLast? = some '\'')) ∧
    ((∃ n, Scanner.parseValueL ("42" : String).data = .int n) ↔
      pyIntShape ("42" : String).data) :=
  ⟨⟨by decide, by decide, by decide, by decide, by decide⟩,
   claim6_amended_grammar ("42" : String).data (by decide) (by decide)
     (by decide) (by decide) (by decide)⟩

/-- counterexample to C6 as stated: `1_0` is not sign-plus-digits-only, yet
rules 1–6 all fail on it and coercion returns the Integer 10 (Python's `int`
accepts underscore-grouped digits). -/
theorem claim6_counterexample :
    Scanner.parseValue "1_0" = .int 10 ∧
    signDigitsOnly ("1_0" : String).data = false ∧
    ("1_0" : String).data ≠ [] ∧
    pyStripL ("1_0" : String).data = ("1_0" : String).data ∧
    lowerL ("1_0" : String).data ∉ boolNullWords ∧
    ¬(("1_0" : String).data.head? = some '"' ∧
      ("1_0" : String).data.getLast? = some '"') ∧
    ¬(("1_0" : String).data.head? = some '\'' ∧
      ("1_0" : String).data.getLast? = some '\'') :=
  ⟨rfl, by decide, by decide, by decide, by decide, by decide, by decide⟩

/-- Claim C7, confirmed: scalar rendering — `null`, `true`/`false`, the
decimal text of an integer (a text `int` reads back to the same integer), a
float's carried text, and a string verbatim unless it holds a must-quote
character, in which case one pair of double quotes is added with no internal
escaping. -/
theorem claim7_scalar_render : ∀ w level : Nat,
    Dumper.dump w .null level = "null" ∧
    Dumper.dump w (.bool true) level = "true" ∧
    Dumper.dump w (.bool false) level = "false" ∧
    (∀ n : Int, Dumper.dump w (.int n) level = intToString n ∧
      pyInt? (intToString n).data = some n) ∧
    (∀ t : String, Dumper.dump w (.float t) level = t) ∧
    (∀ s : String, Dumper.dump w (.str s) level =
      if mustQuote s then "\"" ++ s ++ "\"" else s) ∧
    (∀ s : String, mustQuote s = true ↔ ∃ c ∈ s.data, c ∈ mustQuoteChars) := by
  intro w level
  refine ⟨dump_null w level, ?_, ?_,
    fun n => ⟨dump_int w level n, pyInt?_intToString n⟩,
    fun t => dump_float w level t, fun s => dump_str w level s,
    fun s => mustQuote_iff s⟩
  · rw [dump_bool]
    rfl
  · rw [dump_bool]
    rfl

/-- Claim C8, confirmed: on a surviving line whose stripped content does not
start with dash-space, the ends-with-colon test runs first — a content ending
in `:` becomes a KEY token with the colon removed even when it contains
`": "`; only a content with `": "` that does not end in `:` is split at the
first `": "` into a KEY_VALUE token carrying the coerced value. -/
theorem claim8_key_priority (l : List Char)
    (hne : pyStripL l ≠ []) (hhash : (pyStripL l).head? ≠ some '#')
    (htake : (pyStripL l).take 2 ≠ ['-', ' ']) :
    ((pyStripL l).getLast? = some ':' →
      lineTok l = some (.key ⟨(pyStripL l).dropLast⟩
        (l.length - (l.dropWhile isPyWs).length))) ∧
    ((pyStripL l).getLast? ≠ some ':' →
      ∀ k r, splitColonSpace (pyStripL l) = some (k, r) →
        lineTok l = some (.keyValue ⟨k⟩ (Scanner.parseValueL r)
          (l.length - (l.dropWhile isPyWs).length))) := by
  constructor
  · intro hlast
    simp only [lineTok]
    rw [if_neg hne, if_neg hhash, if_neg htake,
      if_pos (show (splitColonSpace (pyStripL l)).isSome = true ∨
        (pyStripL l).getLast? = some ':' from Or.inr hlast),
      if_pos hlast]
  · intro hlast k r hsplit
    simp only [lineTok]
    rw [if_neg hne, if_neg hhash, if_neg htake,
      if_pos (show (splitColonSpace (pyStripL l)).isSome = true ∨
        (pyStripL l).getLast? = some ':' from Or.inl (by rw [hsplit]; rfl)),
      if_neg hlast, hsplit]

/-- witness for C8: the line `a: b:` both contains `": "` and ends in a
colon, and is classified KEY with payload `a: b`. -/
theorem claim8_key_priority_witness :
    (pyStripL ("a: b:" : String).data ≠ [] ∧
      (pyStripL ("a: b:" : String).data).head? ≠ some '#' ∧
      (pyStripL ("a: b:" : String).data).take 2 ≠ ['-', ' '] ∧
      (pyStripL ("a: b:" : String).data).getLast? = some ':') ∧
    lineTok ("a: b:" : String).data =
      some (.key ⟨(pyStripL ("a: b:" : String).data).dropLast⟩
        (("a: b:" : String).data.length -
          (("a: b:" : String).data.dropWhile isPyWs).length)) :=
  ⟨⟨by decide, by decide, by decide, by decide⟩,
   (claim8_key_priority ("a: b:" : String).data (by decide) (by decide)
     (by decide)).1 (by decide)⟩

/-- Claim C9, confirmed: inserting an entry for an existing key overwrites
its value in place (the key keeps its original position, nothing is raised —
insertion is total), the mapping loop performs exactly this insertion on
every KEY_VALUE token, and a duplicated key in a document keeps its first
position with its last value. -/
theorem claim9_duplicate_overwrite :
    (∀ (es1 es2 : List (String × Value)) (k : String) (v v' : Value),
      k ∉ es1.map Prod.fst →
      insertAssoc (es1 ++ (k, v) :: es2) k v' = es1 ++ (k, v') :: es2) ∧
    (∀ (b : Nat) (k : String) (v : Value) (i : Nat) (ts : List Tok)
      (acc : List (String × Value)), ¬ i < b →
      parseMappingF b (.keyValue k v i :: ts) acc =
        parseMappingF b ts (insertAssoc acc k v)) ∧
    load "a: 1\nb: 2\na: 3" = .map [("a", .int 3), ("b", .int 2)] := by
  refine ⟨fun es1 es2 k v v' h => insertAssoc_overwrite es1 es2 k v v' h,
    fun b k v i ts acc h => parseMappingF_keyValue b k v i ts acc h, ?_⟩
  have h : Scanner.scan "a: 1\nb: 2\na: 3" =
      [.keyValue "a" (.int 1) 0, .keyValue "b" (.int 2) 0,
       .keyValue "a" (.int 3) 0] := rfl
  rw [load, h, Parser.parse_eq]
  simp [parseValueF_keyValue, parseMappingF_keyValue, parseMappingF_nil,
    insertAssoc]

/-- witness for C9: overwriting the key `a` keeps its position after `x`. -/
theorem claim9_duplicate_overwrite_witness :
    (("a" : String) ∉ [(("x" : String), Value.null)].map Prod.fst) ∧
    insertAssoc ([(("x" : String), Value.null)] ++ ("a", Value.int 1) :: [])
        "a" (Value.int 2) =
      [(("x" : String), Value.null)] ++ ("a", Value.int 2) :: [] :=
  ⟨by decide,
   claim9_duplicate_overwrite.1 [(("x" : String), Value.null)] [] "a"
     (Value.int 1) (Value.int 2) (by decide)⟩

/-- Claim C10, confirmed: a lone double-quote character is both the first and
the last character of its fragment, so the quote-stripping rule fires and
yields the empty string; likewise a lone single quote. -/
theorem claim10_quote_stripping :
    Scanner.parseValue "\"" = .str "" ∧
    Scanner.parseValue "'" = .str "" ∧
    load "\"" = .str "" ∧
    load "'" = .str "" :=
  ⟨rfl, rfl, load_single_value _ _ rfl, load_single_value _ _ rfl⟩

end RoadYaml
